import Mathlib

/-!
# Verification of the metadata processing engine (`metadata-system.js`)

A shallow embedding of the repository's metadata engine:
`MetadataSchema`, `MetadataProcessor` (`createMetadata`, `processField`,
`validateType`, `applyDefault`, `validate`, `normalize`) and
`MetadataManager` (`addMetadata`, `updateMetadata`, `deduplicate`,
`importJSON`).

JavaScript values are modelled by `JsVal`; records are association lists
of string keys and `JsVal`s, in insertion order (as `Object.entries`
returns them).  Exceptions thrown by the code are modelled with
`Except String`, the string being the error's message (for errors raised
by the engine itself the exact source message; for native `TypeError` /
`RangeError` raised by JavaScript builtins the constant tags
`"TypeError"` / `"RangeError"`, since the engine never inspects those
message texts).

Platform builtins used by the engine (`String.prototype.trim`,
`String.prototype.toLowerCase`, `Date`, `JSON.stringify`, `Set`,
template-literal string coercion) are modelled explicitly below; the
`Date` model covers the ECMAScript-mandated ISO-8601 date and date-time
formats (the only formats with specified behaviour) and treats other
strings and non-string, non-null inputs as unparseable.
-/

set_option autoImplicit false

namespace MetadataSystem

/-- A JavaScript value, as far as the metadata engine observes them.
Numbers are modelled as integers (the engine never does arithmetic on
them; they only flow through type checks and coercions). -/
inductive JsVal where
  | str : String → JsVal
  | num : Int → JsVal
  | bool : Bool → JsVal
  | null : JsVal
  | undefined : JsVal
  | arr : List JsVal → JsVal
  | obj : List (String × JsVal) → JsVal

/-- JavaScript truthiness. -/
def truthy : JsVal → Bool
  | .str s => !s.isEmpty
  | .num n => n ≠ 0
  | .bool b => b
  | .null => false
  | .undefined => false
  | .arr _ => true
  | .obj _ => true

/-- The `typeof` operator. -/
def jsTypeof : JsVal → String
  | .str _ => "string"
  | .num _ => "number"
  | .bool _ => "boolean"
  | .null => "object"
  | .undefined => "undefined"
  | .arr _ => "object"
  | .obj _ => "object"

/-- First-occurrence lookup in an entry list (JavaScript objects have
unique keys, so for lists that come from real objects this is plain
property lookup). -/
def lookupField (entries : List (String × JsVal)) (k : String) : Option JsVal :=
  (entries.find? (fun p => p.1 == k)).map (·.2)

/-- Property access `v[k]`: on objects, the own property (or `undefined`);
on `null`/`undefined` a thrown `TypeError`; on other primitives and on
arrays the properties the engine asks for do not exist, so `undefined`. -/
def getProp : JsVal → String → Except String JsVal
  | .null, _ => .error "TypeError"
  | .undefined, _ => .error "TypeError"
  | .obj fs, k => .ok ((lookupField fs k).getD .undefined)
  | _, _ => .ok .undefined

/-- Property assignment `o[k] = v` on an entry list: replace the first
entry with key `k`, or append a new entry. -/
def setEntry : List (String × JsVal) → String → JsVal → List (String × JsVal)
  | [], k, v => [(k, v)]
  | (k', v') :: rest, k, v =>
      if k' == k then (k, v) :: rest else (k', v') :: setEntry rest k v

/-! ## Platform builtins: string trimming, lowercasing, coercion -/

/-- The whitespace characters `String.prototype.trim` removes (restricted
to the ASCII ones the repository's data can contain). -/
def isJsWs (c : Char) : Bool :=
  c == ' ' || c == '\t' || c == '\n' || c == '\r' || c == '\x0b' || c == '\x0c'

/-- Drop leading and trailing whitespace from a character list. -/
def trimList (l : List Char) : List Char :=
  ((l.dropWhile isJsWs).reverse.dropWhile isJsWs).reverse

/-- `String.prototype.trim`. -/
def jsTrim (s : String) : String := ⟨trimList s.data⟩

/-- `String.prototype.toLowerCase` on one character (ASCII letters; other
characters are unchanged, as for the ASCII data this engine processes). -/
def jsLowerChar (c : Char) : Char :=
  if 'A' ≤ c && c ≤ 'Z' then Char.ofNat (c.toNat + 32) else c

/-- `String.prototype.toLowerCase`. -/
def jsLower (s : String) : String := ⟨s.data.map jsLowerChar⟩

mutual

/-- Template-literal / `String(...)` coercion of a value (arrays join
their elements with `","`, `null`/`undefined` elements becoming empty). -/
def jsToString : JsVal → String
  | .str s => s
  | .num n => toString n
  | .bool b => if b then "true" else "false"
  | .null => "null"
  | .undefined => "undefined"
  | .arr xs => String.intercalate "," (jsArrElemStrings xs)
  | .obj _ => "[object Object]"
termination_by structural v => v

/-- The per-element coercion of `Array.prototype.join` (`null` and
`undefined` elements become the empty string). -/
def jsArrElemStrings : List JsVal → List String
  | [] => []
  | .null :: xs => "" :: jsArrElemStrings xs
  | .undefined :: xs => "" :: jsArrElemStrings xs
  | x :: xs => jsToString x :: jsArrElemStrings xs
termination_by structural l => l

end

/-! ## Platform builtins: the `Date` model

The ECMAScript specification mandates parsing for ISO-8601 date and
date-time strings only; `new Date().toISOString()` always yields the
canonical 24-character form `YYYY-MM-DDTHH:MM:SS.mmmZ`.  The model
accepts the canonical form and the date-only form `YYYY-MM-DD` (which
parses as UTC midnight) and treats every other string as unparseable.
Field ranges are checked (month 1–12, day 1–31, hour 0–23,
minute/second 0–59); per-month day counts are not modelled. -/

/-- Numeric value of a two-digit pair. -/
def digit2 (a b : Char) : Nat := (a.toNat - 48) * 10 + (b.toNat - 48)

/-- Character-list shape of a `YYYY-MM-DD` date. -/
def isDateOnlyL : List Char → Bool
  | [y1, y2, y3, y4, h1, m1, m2, h2, d1, d2] =>
      y1.isDigit && y2.isDigit && y3.isDigit && y4.isDigit &&
      h1 == '-' && h2 == '-' &&
      m1.isDigit && m2.isDigit && d1.isDigit && d2.isDigit &&
      decide (1 ≤ digit2 m1 m2) && decide (digit2 m1 m2 ≤ 12) &&
      decide (1 ≤ digit2 d1 d2) && decide (digit2 d1 d2 ≤ 31)
  | _ => false

/-- Character-list shape of the `THH:MM:SS.mmmZ` tail of a canonical
ISO timestamp. -/
def isTimeTailL : List Char → Bool
  | [t, h1, h2, c1, mi1, mi2, c2, s1, s2, dot, f1, f2, f3, z] =>
      t == 'T' && c1 == ':' && c2 == ':' && dot == '.' && z == 'Z' &&
      h1.isDigit && h2.isDigit && mi1.isDigit && mi2.isDigit &&
      s1.isDigit && s2.isDigit && f1.isDigit && f2.isDigit && f3.isDigit &&
      decide (digit2 h1 h2 ≤ 23) && decide (digit2 mi1 mi2 ≤ 59) &&
      decide (digit2 s1 s2 ≤ 59)
  | _ => false

/-- Canonical `toISOString` shape `YYYY-MM-DDTHH:MM:SS.mmmZ`. -/
def isCanonIsoL (l : List Char) : Bool :=
  isDateOnlyL (l.take 10) && isTimeTailL (l.drop 10)

/-- `new Date(s).toISOString()` for a string `s`: a canonical ISO
timestamp round-trips unchanged, a date-only string parses as UTC
midnight, anything else is an invalid date (`none` models the
`RangeError` its `toISOString` raises). -/
def jsDateToISO (s : String) : Option String :=
  if isCanonIsoL s.data then some s
  else if isDateOnlyL s.data then some (s ++ "T00:00:00.000Z")
  else none

/-! ## Platform builtins: `JSON.stringify` (for the deduplication key) -/

/-- Escape a character inside a JSON string literal (quote and backslash;
control characters do not occur in the engine's data and are not
modelled). -/
def jsonEscapeChar (c : Char) : String :=
  if c == '"' || c == '\\' then "\\" ++ String.singleton c else String.singleton c

/-- Escape a JSON string body. -/
def jsonEscape (s : String) : String := String.join (s.data.map jsonEscapeChar)

mutual

/-- `JSON.stringify` (compact).  `none` models the call returning the
value `undefined` (which happens exactly on the input `undefined`);
inside arrays, `undefined` serializes as `null`, and object properties
whose value is `undefined` are skipped. -/
def jsonStringify : JsVal → Option String
  | .str s => some ("\"" ++ jsonEscape s ++ "\"")
  | .num n => some (toString n)
  | .bool b => some (if b then "true" else "false")
  | .null => some "null"
  | .undefined => none
  | .arr xs => some ("[" ++ String.intercalate "," (jsonArrElems xs) ++ "]")
  | .obj fs => some ("\x7b" ++ String.intercalate "," (jsonObjFields fs) ++ "\x7d")
termination_by structural v => v

/-- Array elements of `JSON.stringify` output (`undefined` → `null`). -/
def jsonArrElems : List JsVal → List String
  | [] => []
  | x :: xs => ((jsonStringify x).getD "null") :: jsonArrElems xs
termination_by structural l => l

/-- Object members of `JSON.stringify` output (`undefined`-valued
properties are skipped). -/
def jsonObjFields : List (String × JsVal) → List String
  | [] => []
  | (_, .undefined) :: fs => jsonObjFields fs
  | (k, v) :: fs =>
      ("\"" ++ jsonEscape k ++ "\":" ++ ((jsonStringify v).getD "null")) :: jsonObjFields fs
termination_by structural l => l

end

/-! ## The schema (`MetadataSchema` in the source)

Each field rule carries the source's `type`, `required`, `validate`,
`default`, `normalize` and (for `zone`) `infer` members.  Validators and
normalizers return `Except String`, the error being a thrown native
error (`"TypeError"` / `"RangeError"`). -/

/-- `value === undefined || value === null`. -/
def isMissing : JsVal → Bool
  | .undefined => true
  | .null => true
  | _ => false

/-- The `type:` member: a single type tag or a list of tags. -/
inductive TypeSpec where
  | single : String → TypeSpec
  | multi : List String → TypeSpec

/-- Match a value against one type tag (the body of `validateType`'s
per-tag check: `'array'` means `Array.isArray`, anything else compares
with `typeof`). -/
def typeTagMatches (t : String) (v : JsVal) : Bool :=
  if t == "array" then
    match v with
    | .arr _ => true
    | _ => false
  else jsTypeof v == t

/-- `MetadataProcessor.validateType`. -/
def validateType (v : JsVal) : TypeSpec → Bool
  | .single t => typeTagMatches t v
  | .multi ts => ts.any fun t => typeTagMatches t v

/-- Template-literal coercion of the `type:` member, as it appears in the
`Invalid type for …` error message. -/
def typeSpecString : TypeSpec → String
  | .single t => t
  | .multi ts => String.intercalate "," ts

/-- The `default:` member: a literal value, or the zero-argument
function `() => new Date().toISOString()` (modelled by `nowIso`, read
off the `now` parameter threaded through the embedding). -/
inductive DefaultSpec where
  | lit : JsVal → DefaultSpec
  | nowIso : DefaultSpec

/-- `title.validate` / `zone.validate`:
`(value) => value && value.trim().length > 0` (a falsy value
short-circuits; `.trim()` on a truthy non-string throws). -/
def truthyTrimNonempty (v : JsVal) : Except String Bool :=
  if !truthy v then .ok false
  else match v with
    | .str s => .ok (decide ((jsTrim s).length > 0))
    | _ => .error "TypeError"

/-- `author.validate`: a string must be nonempty after trimming; an array
must be nonempty with every element a nonempty-after-trim string (the
`typeof` guard short-circuits, so no throw); anything else is invalid. -/
def authorValidate (v : JsVal) : Except String Bool :=
  match v with
  | .str s => .ok (decide ((jsTrim s).length > 0))
  | .arr xs => .ok (decide (xs.length > 0) && xs.all fun a =>
      match a with
      | .str t => decide ((jsTrim t).length > 0)
      | _ => false)
  | _ => .ok false

/-- `created_at.validate` / `updated_at.validate`:
`(value) => !isNaN(Date.parse(value))` (`Date.parse` coerces its
argument to a string first). -/
def dateParseOk (v : JsVal) : Except String Bool :=
  .ok (jsDateToISO (jsToString v)).isSome

/-- The regular expression test of `version.validate` on a character
list: `\d+` then `.` then `\d+` then `.` then `\d+`, anchored at both
ends (greedy digit runs are exact here since a digit never matches the
literal dot). -/
def isSemverL (l : List Char) : Bool :=
  match l.dropWhile Char.isDigit with
  | '.' :: r2 =>
      match r2.dropWhile Char.isDigit with
      | '.' :: r4 =>
          !(l.takeWhile Char.isDigit).isEmpty &&
          !(r2.takeWhile Char.isDigit).isEmpty &&
          !(r4.takeWhile Char.isDigit).isEmpty &&
          (r4.dropWhile Char.isDigit).isEmpty
      | _ => false
  | _ => false

/-- The regular expression test of `version.validate`:
`/^\d+\.\d+\.\d+$/`. -/
def isSemverStr (s : String) : Bool := isSemverL s.data

/-- `version.validate` (`RegExp.test` coerces its argument). -/
def versionValidate (v : JsVal) : Except String Bool :=
  .ok (isSemverStr (jsToString v))

/-- `title.normalize` / `version.normalize`: `(value) => value.trim()`
(throws on non-strings). -/
def trimNormalize : JsVal → Except String JsVal
  | .str s => .ok (.str (jsTrim s))
  | _ => .error "TypeError"

/-- The `Set`-based stable deduplication `[...new Set(l)]`, keeping the
first occurrence of each element. -/
def dedupFirstAux (seen : List String) : List String → List String
  | [] => []
  | x :: xs =>
      if seen.contains x then dedupFirstAux seen xs
      else x :: dedupFirstAux (x :: seen) xs

/-- `[...new Set(l)]` on a list of strings. -/
def dedupFirst (l : List String) : List String := dedupFirstAux [] l

/-- The `value.map(a => a.trim())` step of `author.normalize` on an
array: trim every element, throwing `TypeError` at a non-string
element. -/
def trimStrings : List JsVal → Except String (List String)
  | [] => .ok []
  | .str t :: rest => do
      let ts ← trimStrings rest
      .ok (jsTrim t :: ts)
  | _ :: _ => .error "TypeError"

/-- `author.normalize`: trim a scalar string; for an array, trim each
element, drop empties, deduplicate via `Set`; any other value is
returned unchanged (the function's final `return value`). -/
def authorNormalize (v : JsVal) : Except String JsVal :=
  match v with
  | .str s => .ok (.str (jsTrim s))
  | .arr xs => do
      let ts ← trimStrings xs
      .ok (.arr ((dedupFirst (ts.filter fun t => t.length > 0)).map .str))
  | v => .ok v

/-- `zone.normalize`: `(value) => value.trim().toLowerCase()`. -/
def zoneNormalize : JsVal → Except String JsVal
  | .str s => .ok (.str (jsLower (jsTrim s)))
  | _ => .error "TypeError"

/-- `created_at.normalize` / `updated_at.normalize`:
`(value) => new Date(value).toISOString()`.  `null` and booleans coerce
to the epoch timestamps 0 and 0/1; `undefined` and unparseable strings
give an invalid date, whose `toISOString` throws `RangeError`.  (Numeric
epoch arguments and array arguments are outside the model and also map
to the error case.) -/
def dateNormalize : JsVal → Except String JsVal
  | .str s =>
      match jsDateToISO s with
      | some r => .ok (.str r)
      | none => .error "RangeError"
  | .null => .ok (.str "1970-01-01T00:00:00.000Z")
  | .bool b =>
      .ok (.str (if b then "1970-01-01T00:00:00.001Z" else "1970-01-01T00:00:00.000Z"))
  | _ => .error "RangeError"

/-- `.toLowerCase()` called on an arbitrary value (used by `zone.infer`;
throws on non-strings). -/
def toLowerCaseCall : JsVal → Except String String
  | .str s => .ok (jsLower s)
  | _ => .error "TypeError"

/-- The `.length` property read by `zone.infer` (never throws on a
truthy receiver). -/
def lengthProp : JsVal → JsVal
  | .arr xs => .num xs.length
  | .str s => .num s.length
  | _ => .undefined

/-- `x > 0` where `x` may be `undefined` (which compares false). -/
def gtZero : JsVal → Bool
  | .num n => decide (n > 0)
  | _ => false

/-- Index access `v[0]` as used by `zone.infer` on `context.tags`. -/
def indexZero : JsVal → JsVal
  | .arr xs => xs.head?.getD .undefined
  | .str s =>
      match s.data with
      | [] => .undefined
      | c :: _ => .str (String.singleton c)
  | _ => .undefined

/-- `zone.infer`: prefer `context.category` (lowercased), then
`context.tags[0]` (lowercased) when `tags` is truthy with positive
length, then the literal `"general"`. -/
def zoneInfer (context : JsVal) : Except String JsVal := do
  let cat ← getProp context "category"
  if truthy cat then
    let r ← toLowerCaseCall cat
    return .str r
  else
    let tags ← getProp context "tags"
    if truthy tags && gtZero (lengthProp tags) then
      let r ← toLowerCaseCall (indexZero tags)
      return .str r
    else
      return .str "general"

/-- One field rule of `MetadataSchema`. -/
structure FieldRule where
  type : TypeSpec
  required : Bool
  validate : JsVal → Except String Bool
  default : DefaultSpec
  normalize : Option (JsVal → Except String JsVal)
  infer : Option (JsVal → Except String JsVal)

/-- The `title` rule. -/
def titleRule : FieldRule :=
  { type := .single "string", required := true, validate := truthyTrimNonempty,
    default := .lit (.str "Untitled Document"), normalize := some trimNormalize,
    infer := none }

/-- The `author` rule. -/
def authorRule : FieldRule :=
  { type := .multi ["string", "array"], required := true, validate := authorValidate,
    default := .lit (.str "Unknown Author"), normalize := some authorNormalize,
    infer := none }

/-- The `zone` rule. -/
def zoneRule : FieldRule :=
  { type := .single "string", required := true, validate := truthyTrimNonempty,
    default := .lit (.str "general"), normalize := some zoneNormalize,
    infer := some zoneInfer }

/-- The `created_at` rule. -/
def createdAtRule : FieldRule :=
  { type := .single "string", required := false, validate := dateParseOk,
    default := .nowIso, normalize := some dateNormalize, infer := none }

/-- The `updated_at` rule (same members as `created_at`). -/
def updatedAtRule : FieldRule :=
  { type := .single "string", required := false, validate := dateParseOk,
    default := .nowIso, normalize := some dateNormalize, infer := none }

/-- The `version` rule. -/
def versionRule : FieldRule :=
  { type := .single "string", required := false, validate := versionValidate,
    default := .lit (.str "1.0.0"), normalize := some trimNormalize, infer := none }

/-- `MetadataSchema`: the ordered field-name → rule mapping. -/
def MetadataSchema : List (String × FieldRule) :=
  [("title", titleRule), ("author", authorRule), ("zone", zoneRule),
   ("created_at", createdAtRule), ("updated_at", updatedAtRule),
   ("version", versionRule)]

/-- Rule lookup `this.schema[field]`. -/
def schemaRule (k : String) : Option FieldRule :=
  (MetadataSchema.find? fun p => p.1 == k).map (·.2)

/-! ## `MetadataProcessor` -/

/-- `applyDefault`: invoke a function default (with the current time
`now`) or return the literal default. -/
def applyDefault (rules : FieldRule) (now : String) : JsVal :=
  match rules.default with
  | .lit v => v
  | .nowIso => .str now

/-- The custom-validation step at the end of `processField`
(`if (rules.validate && !rules.validate(value)) throw …`); the schema
always supplies a validator.  Warnings pushed earlier in the call are
carried through. -/
def customValidate (fieldName : String) (rules : FieldRule) (value : JsVal)
    (ws : List (String × String)) : Except String JsVal × List (String × String) :=
  match rules.validate value with
  | .error e => (.error e, ws)
  | .ok b =>
      if b then (.ok value, ws)
      else (.error ("Validation failed for " ++ fieldName), ws)

/-- Steps 2–4 of `processField` on a resolved value: type validation,
normalization, custom validation. -/
def processValue (fieldName : String) (rules : FieldRule) (value : JsVal)
    (ws : List (String × String)) : Except String JsVal × List (String × String) :=
  if !validateType value rules.type then
    (.error ("Invalid type for " ++ fieldName ++ ". Expected " ++
      typeSpecString rules.type ++ ", got " ++ jsTypeof value), ws)
  else
    match rules.normalize with
    | some f =>
        match f value with
        | .error e => (.error e, ws)
        | .ok v => customValidate fieldName rules v ws
    | none => customValidate fieldName rules value ws

/-- `MetadataProcessor.processField`.  Returns the thrown error or the
field's value (`.ok .undefined` is the `return undefined` of an absent
optional field), together with the warnings the call pushed.  A warning
pushed before a later step throws is kept, as in the source. -/
def processField (fieldName : String) (value : JsVal) (rules : FieldRule)
    (context : JsVal) (now : String) :
    Except String JsVal × List (String × String) :=
  if isMissing value then
    match rules.infer, truthy context with
    | some inf, true =>
        (match inf context with
         | .error e => (.error e, [])
         | .ok v =>
             processValue fieldName rules v
               [(fieldName, "Value inferred from context")])
    | _, _ =>
        if rules.required then
          processValue fieldName rules (applyDefault rules now)
            [(fieldName, "Required field missing, using default")]
        else (.ok .undefined, [])
  else processValue fieldName rules value []

/-- One iteration of `createMetadata`'s field loop: read `input[field]`,
run `processField`, and on a thrown error apply the catch-block fallback
(record the error; required fields get the default plus a warning,
optional fields are left without an entry).  Returns the optional entry
value, the errors and the warnings contributed by this field. -/
def processOne (fieldName : String) (rules : FieldRule) (input context : JsVal)
    (now : String) :
    Option JsVal × List (String × String) × List (String × String) :=
  match getProp input fieldName with
  | .error e =>
      if rules.required then
        (some (applyDefault rules now), [(fieldName, e)],
         [(fieldName, "Used default value due to error: " ++ e)])
      else (none, [(fieldName, e)], [])
  | .ok raw =>
      match processField fieldName raw rules context now with
      | (.ok v, ws) => (some v, [], ws)
      | (.error e, ws) =>
          if rules.required then
            (some (applyDefault rules now), [(fieldName, e)],
             ws ++ [(fieldName, "Used default value due to error: " ++ e)])
          else (none, [(fieldName, e)], ws)

/-- Add a field's entry to the record under construction (assignment of
`processField`'s result; no entry when the field's processing threw and
the field is optional). -/
def consIf (fieldName : String) (o : Option JsVal) (m : List (String × JsVal)) :
    List (String × JsVal) :=
  match o with
  | some v => (fieldName, v) :: m
  | none => m

/-- `createMetadata`'s loop over the schema, producing the record's
entries (in schema order, as `Object.entries` would list them) and the
accumulated `this.errors` / `this.warnings`. -/
def createFields (schema : List (String × FieldRule)) (input context : JsVal)
    (now : String) :
    List (String × JsVal) × List (String × String) × List (String × String) :=
  match schema with
  | [] => ([], [], [])
  | (f, r) :: rest =>
      let s := processOne f r input context now
      let t := createFields rest input context now
      (consIf f s.1 t.1, s.2.1 ++ t.2.1, s.2.2 ++ t.2.2)

/-- The record, errors and warnings produced by one
`createMetadata` call. -/
structure CreateResult where
  metadata : List (String × JsVal)
  errors : List (String × String)
  warnings : List (String × String)

/-- `MetadataProcessor.createMetadata`.  `now` stands for
`new Date().toISOString()` at the time of the call. -/
def createMetadata (input context : JsVal) (now : String) : CreateResult :=
  let t := createFields MetadataSchema input context now
  { metadata := t.1 ++ [("_metadata", .obj
      [("processed_at", .str now), ("processor_version", .str "1.0.0"),
       ("has_errors", .bool (decide (t.2.1.length > 0))),
       ("has_warnings", .bool (decide (t.2.2.length > 0)))])],
    errors := t.2.1, warnings := t.2.2 }

/-- The result of `MetadataProcessor.validate`. -/
structure ValidationResult where
  valid : Bool
  errors : List (String × String)

/-- The loop of `MetadataProcessor.validate` over a schema suffix.  A
thrown error (property access on `null`/`undefined`, or a crashing
custom validator) propagates. -/
def validateFields (schema : List (String × FieldRule)) (metadata : JsVal) :
    Except String ValidationResult :=
  match schema with
  | [] => .ok ⟨true, []⟩
  | (f, r) :: rest => do
      let value ← getProp metadata f
      if r.required && isMissing value then
        let res ← validateFields rest metadata
        .ok ⟨false, (f, "Required field is missing") :: res.errors⟩
      else if isMissing value then
        validateFields rest metadata
      else
        let typeErrs :=
          if !validateType value r.type then
            [(f, "Invalid type. Expected " ++ typeSpecString r.type ++ ", got " ++
              jsTypeof value)]
          else []
        let b ← r.validate value
        let custErrs := if !b then [(f, "Custom validation failed")] else []
        let res ← validateFields rest metadata
        .ok ⟨(typeErrs.isEmpty && custErrs.isEmpty) && res.valid,
             typeErrs ++ custErrs ++ res.errors⟩

/-- `MetadataProcessor.validate`. -/
def validate (metadata : JsVal) : Except String ValidationResult :=
  validateFields MetadataSchema metadata

/-- `this.schema[field] && this.schema[field].normalize`. -/
def schemaNormalizeFn (k : String) : Option (JsVal → Except String JsVal) :=
  (schemaRule k).bind (·.normalize)

/-- The per-entry body of `MetadataProcessor.normalize`: apply the
schema's normalizer when the schema defines one for this key, else pass
the value through unchanged. -/
def applyNormalizer (k : String) (v : JsVal) : Except String JsVal :=
  match schemaNormalizeFn k with
  | some f => f v
  | none => .ok v

/-- The entry loop of `MetadataProcessor.normalize`. -/
def normalizeEntries : List (String × JsVal) → Except String (List (String × JsVal))
  | [] => .ok []
  | (k, v) :: rest => do
      let w ← applyNormalizer k v
      let rest' ← normalizeEntries rest
      .ok ((k, w) :: rest')

/-- `MetadataProcessor.normalize` on a record's entries. -/
def normalize (metadata : List (String × JsVal)) :
    Except String (List (String × JsVal)) :=
  normalizeEntries metadata

/-! ## `MetadataManager`

The manager's state is its `metadataStore`, a list of values (normally
records; `importJSON` can put arbitrary parsed JSON values in it).  Each
operation takes the store and returns the result together with the new
store; a returned `.error` models a thrown exception, after which the
store is whatever it was when the exception escaped. -/

/-- `errors.map(e => e.message).join(', ')`. -/
def joinMessages (errors : List (String × String)) : String :=
  String.intercalate ", " (errors.map (·.2))

/-- `MetadataManager.addMetadata`. -/
def addMetadata (input context : JsVal) (now : String) (store : List JsVal) :
    Except String JsVal × List JsVal :=
  let r := createMetadata input context now
  let m : JsVal := .obj r.metadata
  match validate m with
  | .error e => (.error e, store)
  | .ok vr =>
      if vr.valid then (.ok m, store ++ [m])
      else (.error ("Invalid metadata: " ++ joinMessages vr.errors), store)

/-- Object spread `{...base, ...v}` (string and array operands spread
their indexed elements; `null`, `undefined` and other primitives spread
nothing). -/
def spreadEntries (base : List (String × JsVal)) : JsVal → List (String × JsVal)
  | .obj fs => fs.foldl (fun acc p => setEntry acc p.1 p.2) base
  | .arr xs => xs.enum.foldl (fun acc p => setEntry acc (toString p.1) p.2) base
  | .str s => s.data.enum.foldl
      (fun acc p => setEntry acc (toString p.1) (.str (String.singleton p.2))) base
  | _ => base

/-- `MetadataManager.updateMetadata`. -/
def updateMetadata (index : Int) (updates : List (String × JsVal)) (now : String)
    (store : List JsVal) : Except String JsVal × List JsVal :=
  if index < 0 || (store.length : Int) ≤ index then
    (.error "Invalid metadata index", store)
  else
    let existing := (store.get? index.toNat).getD .undefined
    let updated := spreadEntries (spreadEntries [] existing) (.obj updates)
    let updated :=
      if (schemaRule "updated_at").isSome then setEntry updated "updated_at" (.str now)
      else updated
    match normalize updated with
    | .error e => (.error e, store)
    | .ok norm =>
        match validate (.obj norm) with
        | .error e => (.error e, store)
        | .ok vr =>
            if !vr.valid then
              (.error ("Update validation failed: " ++ joinMessages vr.errors), store)
            else (.ok (.obj norm), store.set index.toNat (.obj norm))

/-- The composite deduplication key
`` `${item.title}:${JSON.stringify(item.author)}` `` (property access on
a non-record store element can throw). -/
def dedupKey (item : JsVal) : Except String String := do
  let t ← getProp item "title"
  let a ← getProp item "author"
  .ok (jsToString t ++ ":" ++ ((jsonStringify a).getD "undefined"))

/-- The `filter` pass of `deduplicate` with its running `seen` set. -/
def dedupRun (seen : List String) : List JsVal → Except String (List JsVal)
  | [] => .ok []
  | item :: rest => do
      let key ← dedupKey item
      if seen.contains key then dedupRun seen rest
      else do
        let r ← dedupRun (key :: seen) rest
        .ok (item :: r)

/-- `MetadataManager.deduplicate` (the new store it assigns; an error is
a thrown exception, leaving the store unchanged). -/
def deduplicate (store : List JsVal) : Except String (List JsVal) :=
  dedupRun [] store

/-- Outcome of `MetadataManager.importJSON`: the returned boolean, the
resulting store, and the `console.warn` payloads (the validation errors
of each invalid entry). -/
structure ImportResult where
  ok : Bool
  store : List JsVal
  warnings : List (List (String × String))

/-- The entry-validation loop of `importJSON`: validate every element in
order, propagating a thrown validation error, and collect the results
(the source only uses them for `console.warn`). -/
def validateAll : List JsVal → Except String (List ValidationResult)
  | [] => .ok []
  | item :: rest => do
      let v ← validate item
      let vs ← validateAll rest
      .ok (v :: vs)

/-- `MetadataManager.importJSON`.  The `parsed` argument is the outcome
of the `JSON.parse` call on the input string (`none` when the parse
throws).  A non-array value, or a validation call that itself throws,
is caught by the surrounding `try`/`catch` and yields `false` with the
store untouched; otherwise the parsed array replaces the store. -/
def importJSON (parsed : Option JsVal) (store : List JsVal) : ImportResult :=
  match parsed with
  | none => ⟨false, store, []⟩
  | some data =>
      match data with
      | .arr items =>
          match validateAll items with
          | .error _ => ⟨false, store, []⟩
          | .ok results =>
              ⟨true, items, ((results.filter fun r => !r.valid).map (·.errors))⟩
      | _ => ⟨false, store, []⟩

/-! ## Lemmas about the string builtins -/

lemma char_le_iff {a b : Char} : a ≤ b ↔ a.toNat ≤ b.toNat := by
  rw [Char.le_def, UInt32.le_def, BitVec.le_def]
  exact Iff.rfl

lemma char_eq_iff {a b : Char} : a = b ↔ a.toNat = b.toNat := by
  rw [Char.ext_iff, UInt32.ext_iff]
  exact Iff.rfl

lemma toNat_ofNat_lt {n : Nat} (h : n < 55296) : (Char.ofNat n).toNat = n := by
  unfold Char.ofNat
  rw [dif_pos (Or.inl h)]
  simp [Char.ofNatAux, Char.toNat, UInt32.toNat, BitVec.toNat_ofNatLt]

lemma toNat_jsLowerChar (c : Char) :
    (jsLowerChar c).toNat =
      if 65 ≤ c.toNat ∧ c.toNat ≤ 90 then c.toNat + 32 else c.toNat := by
  have hiff : ('A' ≤ c && c ≤ 'Z') = true ↔ (65 ≤ c.toNat ∧ c.toNat ≤ 90) := by
    rw [Bool.and_eq_true, decide_eq_true_iff, decide_eq_true_iff, char_le_iff,
      char_le_iff]
    exact Iff.rfl
  by_cases h : 65 ≤ c.toNat ∧ c.toNat ≤ 90
  · rw [if_pos h]
    unfold jsLowerChar
    rw [if_pos (hiff.mpr h)]
    exact toNat_ofNat_lt (by omega)
  · rw [if_neg h]
    unfold jsLowerChar
    rw [if_neg (fun hb => h (hiff.mp hb))]

lemma jsLowerChar_eq_self {c : Char} (h : ¬(65 ≤ c.toNat ∧ c.toNat ≤ 90)) :
    jsLowerChar c = c := by
  have := toNat_jsLowerChar c
  rw [if_neg h] at this
  exact char_eq_iff.mpr this

lemma jsLowerChar_idem (c : Char) : jsLowerChar (jsLowerChar c) = jsLowerChar c := by
  have h1 := toNat_jsLowerChar c
  apply jsLowerChar_eq_self
  by_cases h : 65 ≤ c.toNat ∧ c.toNat ≤ 90
  · rw [if_pos h] at h1
    omega
  · rw [if_neg h] at h1
    omega

lemma isJsWs_iff (c : Char) : isJsWs c = true ↔
    c.toNat = 32 ∨ c.toNat = 9 ∨ c.toNat = 10 ∨ c.toNat = 13 ∨
    c.toNat = 11 ∨ c.toNat = 12 := by
  have h : ∀ d : Char, (c == d) = true ↔ c.toNat = d.toNat := by
    intro d
    rw [beq_iff_eq, char_eq_iff]
  simp only [isJsWs, Bool.or_eq_true, h]
  have e1 : ' '.toNat = 32 := rfl
  have e2 : '\t'.toNat = 9 := rfl
  have e3 : '\n'.toNat = 10 := rfl
  have e4 : '\r'.toNat = 13 := rfl
  have e5 : '\x0b'.toNat = 11 := rfl
  have e6 : '\x0c'.toNat = 12 := rfl
  rw [e1, e2, e3, e4, e5, e6]
  tauto

lemma isJsWs_jsLowerChar (c : Char) : isJsWs (jsLowerChar c) = isJsWs c := by
  have ht := toNat_jsLowerChar c
  by_cases h : 65 ≤ c.toNat ∧ c.toNat ≤ 90
  · rw [if_pos h] at ht
    have h1 : ¬(isJsWs (jsLowerChar c) = true) := by
      rw [isJsWs_iff]
      omega
    have h2 : ¬(isJsWs c = true) := by
      rw [isJsWs_iff]
      omega
    rw [Bool.eq_false_iff.mpr h1, Bool.eq_false_iff.mpr h2]
  · rw [jsLowerChar_eq_self h]

lemma dropWhile_idem (p : Char → Bool) (l : List Char) :
    List.dropWhile p (List.dropWhile p l) = List.dropWhile p l := by
  induction l with
  | nil => rfl
  | cons x xs ih =>
      by_cases h : p x
      · simp [List.dropWhile, h, ih]
      · simp [List.dropWhile, h]

lemma dropWhile_self_of_prefix {p : Char → Bool} {l x : List Char}
    (h : l.dropWhile p = l) (hx : x <+: l) : x.dropWhile p = x := by
  rw [List.dropWhile_eq_self_iff] at h ⊢
  intro hl
  obtain ⟨t, rfl⟩ := hx
  have hl' : 0 < (x ++ t).length := by
    rw [List.length_append]
    omega
  have h2 := h hl'
  rwa [List.get_append 0 hl] at h2

lemma trimList_idem (l : List Char) : trimList (trimList l) = trimList l := by
  have ha := dropWhile_idem isJsWs l
  set a := l.dropWhile isJsWs with hadef
  set x := a.reverse.dropWhile isJsWs with hxdef
  have h1 : trimList l = x.reverse := rfl
  have hpre : x.reverse <+: a := by
    rw [← List.reverse_suffix, List.reverse_reverse, hxdef]
    exact List.dropWhile_suffix isJsWs
  have h2 : x.reverse.dropWhile isJsWs = x.reverse := dropWhile_self_of_prefix ha hpre
  rw [h1]
  unfold trimList
  rw [h2, List.reverse_reverse, hxdef, dropWhile_idem]

lemma jsTrim_idem (s : String) : jsTrim (jsTrim s) = jsTrim s := by
  show String.mk (trimList (trimList s.data)) = String.mk (trimList s.data)
  rw [trimList_idem]

lemma trimList_map_lower (l : List Char) :
    trimList (l.map jsLowerChar) = (trimList l).map jsLowerChar := by
  have hcomp : (isJsWs ∘ jsLowerChar) = isJsWs := funext isJsWs_jsLowerChar
  unfold trimList
  rw [List.dropWhile_map, hcomp, List.reverse_map, List.dropWhile_map, hcomp,
    List.reverse_map]

lemma jsTrim_jsLower_comm (s : String) : jsTrim (jsLower s) = jsLower (jsTrim s) := by
  show String.mk (trimList (s.data.map jsLowerChar))
      = String.mk ((trimList s.data).map jsLowerChar)
  rw [trimList_map_lower]

lemma jsLower_idem (s : String) : jsLower (jsLower s) = jsLower s := by
  show String.mk ((s.data.map jsLowerChar).map jsLowerChar)
      = String.mk (s.data.map jsLowerChar)
  rw [List.map_map]
  congr 1
  exact List.map_congr_left fun c _ => jsLowerChar_idem c

lemma zoneNorm_idem (s : String) :
    jsLower (jsTrim (jsLower (jsTrim s))) = jsLower (jsTrim s) := by
  rw [jsTrim_jsLower_comm, jsTrim_idem, jsLower_idem]

/-! ## Lemmas about the `Date` model -/

lemma isDateOnlyL_length {l : List Char} (h : isDateOnlyL l = true) : l.length = 10 := by
  unfold isDateOnlyL at h
  split at h
  · simp_all
  · exact absurd h (by simp)

lemma jsDateToISO_fixed {s r : String} (h : jsDateToISO s = some r) :
    jsDateToISO r = some r := by
  unfold jsDateToISO at h ⊢
  by_cases h1 : isCanonIsoL s.data = true
  · rw [if_pos h1] at h
    obtain rfl : s = r := Option.some.inj h
    rw [if_pos h1]
  · rw [if_neg h1] at h
    by_cases h2 : isDateOnlyL s.data = true
    · rw [if_pos h2] at h
      obtain rfl : s ++ "T00:00:00.000Z" = r := Option.some.inj h
      have hlen := isDateOnlyL_length h2
      have hcanon : isCanonIsoL (s ++ "T00:00:00.000Z").data = true := by
        unfold isCanonIsoL
        rw [String.data_append, ← hlen, List.take_left, List.drop_left]
        rw [Bool.and_eq_true]
        exact ⟨h2, by decide⟩
      rw [if_pos hcanon]
    · rw [if_neg h2] at h
      exact absurd h (by simp)

/-! ## Idempotence of the schema's normalizers -/

lemma trimNormalize_idem {v w : JsVal} (h : trimNormalize v = .ok w) :
    trimNormalize w = .ok w := by
  cases v with
  | str s =>
      simp only [trimNormalize] at h
      obtain rfl : JsVal.str (jsTrim s) = w := by injection h
      simp [trimNormalize, jsTrim_idem]
  | _ => simp [trimNormalize] at h

lemma zoneNormalize_idem {v w : JsVal} (h : zoneNormalize v = .ok w) :
    zoneNormalize w = .ok w := by
  cases v with
  | str s =>
      simp only [zoneNormalize] at h
      obtain rfl : JsVal.str (jsLower (jsTrim s)) = w := by injection h
      simp [zoneNormalize, zoneNorm_idem]
  | _ => simp [zoneNormalize] at h

lemma dateNormalize_idem {v w : JsVal} (h : dateNormalize v = .ok w) :
    dateNormalize w = .ok w := by
  cases v with
  | str s =>
      have h' : (match jsDateToISO s with
          | some r => Except.ok (JsVal.str r)
          | none => Except.error "RangeError") = Except.ok w := h
      cases hd : jsDateToISO s with
      | none => rw [hd] at h'; exact absurd h' (by simp)
      | some r =>
          rw [hd] at h'
          obtain rfl : JsVal.str r = w := by injection h'
          show (match jsDateToISO r with
            | some u => Except.ok (JsVal.str u)
            | none => Except.error "RangeError") = Except.ok (JsVal.str r)
          rw [jsDateToISO_fixed hd]
  | null =>
      simp only [dateNormalize] at h
      obtain rfl : JsVal.str "1970-01-01T00:00:00.000Z" = w := by injection h
      rfl
  | bool b =>
      simp only [dateNormalize] at h
      cases b with
      | true =>
          obtain rfl : JsVal.str "1970-01-01T00:00:00.001Z" = w := by injection h
          rfl
      | false =>
          obtain rfl : JsVal.str "1970-01-01T00:00:00.000Z" = w := by injection h
          rfl
  | _ => simp [dateNormalize] at h

lemma trimStrings_ok_mem {xs : List JsVal} {ts : List String}
    (h : trimStrings xs = .ok ts) : ∀ t ∈ ts, jsTrim t = t := by
  induction xs generalizing ts with
  | nil =>
      obtain rfl : ([] : List String) = ts := by injection h
      intro t ht
      cases ht
  | cons x rest ih =>
      cases x with
      | str a =>
          have h' : (do
              let ts2 ← trimStrings rest
              Except.ok (jsTrim a :: ts2)) = Except.ok ts := h
          cases hr : trimStrings rest with
          | error e => rw [hr] at h'; exact absurd h' (by simp [Bind.bind, Except.bind])
          | ok ts' =>
              rw [hr] at h'
              simp only [Bind.bind, Except.bind] at h'
              obtain rfl : jsTrim a :: ts' = ts := by injection h' 
              intro t ht
              rcases List.mem_cons.mp ht with rfl | ht'
              · exact jsTrim_idem a
              · exact ih hr t ht'
      | _ => simp [trimStrings] at h

lemma trimStrings_map_str (l : List String) :
    trimStrings (l.map .str) = .ok (l.map jsTrim) := by
  induction l with
  | nil => rfl
  | cons a rest ih => simp [trimStrings, ih, Bind.bind, Except.bind]

lemma dedupFirstAux_mem_not_seen {seen : List String} {l : List String} :
    ∀ x ∈ dedupFirstAux seen l, x ∉ seen := by
  induction l generalizing seen with
  | nil => intro x hx; cases hx
  | cons y ys ih =>
      intro x hx
      unfold dedupFirstAux at hx
      by_cases hy : seen.contains y
      · rw [if_pos hy] at hx
        exact ih x hx
      · rw [if_neg hy] at hx
        rcases List.mem_cons.mp hx with rfl | hx'
        · simpa using hy
        · have h2 := ih x hx'
          exact fun hm => h2 (List.mem_cons_of_mem y hm)

lemma dedupFirstAux_nodup (seen : List String) (l : List String) :
    (dedupFirstAux seen l).Nodup := by
  induction l generalizing seen with
  | nil => exact List.nodup_nil
  | cons y ys ih =>
      unfold dedupFirstAux
      by_cases hy : seen.contains y
      · rw [if_pos hy]
        exact ih seen
      · rw [if_neg hy]
        refine List.nodup_cons.mpr ⟨?_, ih (y :: seen)⟩
        intro hmem
        exact dedupFirstAux_mem_not_seen y hmem (List.mem_cons_self y seen)

lemma dedupFirstAux_eq_self {seen : List String} {l : List String} (hnd : l.Nodup)
    (hdisj : ∀ x ∈ l, x ∉ seen) : dedupFirstAux seen l = l := by
  induction l generalizing seen with
  | nil => rfl
  | cons y ys ih =>
      unfold dedupFirstAux
      rw [if_neg (fun hc => (hdisj y (List.mem_cons_self y ys)) (by simpa using hc))]
      congr 1
      refine ih (List.nodup_cons.mp hnd).2 ?_
      intro x hx hm
      rcases List.mem_cons.mp hm with he | hm2
      · exact (List.nodup_cons.mp hnd).1 (he ▸ hx)
      · exact hdisj x (List.mem_cons_of_mem y hx) hm2

lemma dedupFirst_mem {l : List String} : ∀ x ∈ dedupFirst l, x ∈ l := by
  have key : ∀ (seen l' : List String), ∀ x ∈ dedupFirstAux seen l', x ∈ l' := by
    intro seen l'
    induction l' generalizing seen with
    | nil => intro x hx; cases hx
    | cons y ys ih =>
        intro x hx
        unfold dedupFirstAux at hx
        by_cases hy : seen.contains y
        · rw [if_pos hy] at hx
          exact List.mem_cons_of_mem y (ih seen x hx)
        · rw [if_neg hy] at hx
          rcases List.mem_cons.mp hx with rfl | hx'
          · exact List.mem_cons_self x ys
          · exact List.mem_cons_of_mem y (ih (y :: seen) x hx')
  exact key [] l

lemma authorNormalize_idem {v w : JsVal} (h : authorNormalize v = .ok w) :
    authorNormalize w = .ok w := by
  cases v with
  | str s =>
      simp only [authorNormalize] at h
      obtain rfl : JsVal.str (jsTrim s) = w := by injection h
      simp [authorNormalize, jsTrim_idem]
  | arr xs =>
      have h' : (do
          let ts ← trimStrings xs
          Except.ok (JsVal.arr
            (List.map JsVal.str
              (dedupFirst (List.filter (fun t => decide (t.length > 0)) ts))))) =
          Except.ok w := h
      cases ht : trimStrings xs with
      | error e => rw [ht] at h'; exact absurd h' (by simp [Bind.bind, Except.bind])
      | ok ts =>
          rw [ht] at h'
          simp only [Bind.bind, Except.bind] at h' 
          set L := dedupFirst (ts.filter fun t => t.length > 0) with hL
          obtain rfl : JsVal.arr (L.map .str) = w := by injection h' 
          have hmemL : ∀ x ∈ L, x ∈ ts.filter fun t => t.length > 0 := by
            rw [hL]
            exact dedupFirst_mem
          have htrimmed : ∀ x ∈ L, jsTrim x = x := by
            intro x hx
            exact trimStrings_ok_mem ht x (List.mem_of_mem_filter (hmemL x hx))
          have hpos : ∀ x ∈ L, decide (x.length > 0) = true := by
            intro x hx
            exact (List.mem_filter.mp (hmemL x hx)).2
          show (do
              let ts2 ← trimStrings (L.map .str)
              Except.ok (JsVal.arr
                (List.map JsVal.str
                  (dedupFirst (List.filter (fun t => decide (t.length > 0)) ts2))))) =
            Except.ok (JsVal.arr (L.map .str))
          rw [trimStrings_map_str]
          simp only [Bind.bind, Except.bind]
          have e1 : L.map jsTrim = L := by
            rw [List.map_congr_left htrimmed]
            exact List.map_id' L
          rw [e1]
          have e2 : (L.filter fun t => t.length > 0) = L :=
            List.filter_eq_self.mpr hpos
          rw [e2]
          have e3 : dedupFirst L = L :=
            dedupFirstAux_eq_self (dedupFirstAux_nodup [] _) (by simp)
          rw [e3]
  | num n =>
      obtain rfl : JsVal.num n = w := by injection h
      rfl
  | bool b =>
      obtain rfl : JsVal.bool b = w := by injection h
      rfl
  | null =>
      obtain rfl : JsVal.null = w := by injection h
      rfl
  | undefined =>
      obtain rfl : JsVal.undefined = w := by injection h
      rfl
  | obj fs =>
      obtain rfl : JsVal.obj fs = w := by injection h
      rfl

/-! ## `normalize` is idempotent -/

lemma schemaNormalizeFn_eq_none {k : String} (h1 : k ≠ "title") (h2 : k ≠ "author")
    (h3 : k ≠ "zone") (h4 : k ≠ "created_at") (h5 : k ≠ "updated_at")
    (h6 : k ≠ "version") : schemaNormalizeFn k = none := by
  unfold schemaNormalizeFn schemaRule MetadataSchema
  rw [List.find?_cons_of_neg, List.find?_cons_of_neg, List.find?_cons_of_neg,
    List.find?_cons_of_neg, List.find?_cons_of_neg, List.find?_cons_of_neg,
    List.find?_nil]
  · rfl
  all_goals simp only [beq_iff_eq]
  · exact fun hh => h6 hh.symm
  · exact fun hh => h5 hh.symm
  · exact fun hh => h4 hh.symm
  · exact fun hh => h3 hh.symm
  · exact fun hh => h2 hh.symm
  · exact fun hh => h1 hh.symm

lemma schemaNormalizeFn_cases (k : String) :
    schemaNormalizeFn k = none ∨
    schemaNormalizeFn k = some trimNormalize ∨
    schemaNormalizeFn k = some authorNormalize ∨
    schemaNormalizeFn k = some zoneNormalize ∨
    schemaNormalizeFn k = some dateNormalize := by
  by_cases h1 : k = "title"
  · subst h1; right; left; rfl
  by_cases h2 : k = "author"
  · subst h2; right; right; left; rfl
  by_cases h3 : k = "zone"
  · subst h3; right; right; right; left; rfl
  by_cases h4 : k = "created_at"
  · subst h4; right; right; right; right; rfl
  by_cases h5 : k = "updated_at"
  · subst h5; right; right; right; right; rfl
  by_cases h6 : k = "version"
  · subst h6; right; left; rfl
  · left; exact schemaNormalizeFn_eq_none h1 h2 h3 h4 h5 h6

lemma applyNormalizer_idem {k : String} {v w : JsVal}
    (h : applyNormalizer k v = .ok w) : applyNormalizer k w = .ok w := by
  rcases schemaNormalizeFn_cases k with hc | hc | hc | hc | hc <;>
    simp only [applyNormalizer, hc] at h ⊢
  · exact trimNormalize_idem h
  · exact authorNormalize_idem h
  · exact zoneNormalize_idem h
  · exact dateNormalize_idem h

lemma normalizeEntries_idem {l l' : List (String × JsVal)}
    (h : normalizeEntries l = .ok l') : normalizeEntries l' = .ok l' := by
  induction l generalizing l' with
  | nil =>
      obtain rfl : ([] : List (String × JsVal)) = l' := by injection h
      rfl
  | cons kv rest ih =>
      obtain ⟨k, v⟩ := kv
      have h' : (do
          let w ← applyNormalizer k v
          let rest' ← normalizeEntries rest
          Except.ok ((k, w) :: rest')) = Except.ok l' := h
      cases hw : applyNormalizer k v with
      | error e => rw [hw] at h'; exact absurd h' (by simp [Bind.bind, Except.bind])
      | ok w =>
          rw [hw] at h'
          simp only [Bind.bind, Except.bind] at h'
          cases hr : normalizeEntries rest with
          | error e => rw [hr] at h'; exact absurd h' (by simp)
          | ok rest' =>
              rw [hr] at h'
              obtain rfl : (k, w) :: rest' = l' := by injection h'
              show (do
                  let w2 ← applyNormalizer k w
                  let rest2 ← normalizeEntries rest'
                  Except.ok ((k, w2) :: rest2)) = Except.ok ((k, w) :: rest')
              rw [applyNormalizer_idem hw]
              simp only [Bind.bind, Except.bind]
              rw [ih hr]

/-- C8: `Processor.normalize` is idempotent on the fixed schema: whenever
`normalize` is defined on a record (each schema-keyed value is accepted
by its field normalizer), applying `normalize` to its own output returns
that output unchanged — the trim, trim-and-lowercase, stable-dedup and
date-to-ISO normalizers are each idempotent, and entries without a
schema normalizer pass through unchanged. -/
theorem normalize_idempotent (m m' : List (String × JsVal))
    (h : normalize m = .ok m') : normalize m' = .ok m' :=
  normalizeEntries_idem h

/-- Witness for C8 at a concrete record (trimmed title, uppercase zone,
date-only timestamp, an author array with a duplicate, and a key outside
the schema). -/
theorem normalize_idempotent_witness :
    normalize [("title", .str "  T "), ("author", .arr [.str "A", .str " A"]),
        ("zone", .str " TECH "), ("created_at", .str "2024-01-01"),
        ("extra", .num 3)] =
      .ok [("title", .str "T"), ("author", .arr [.str "A"]),
        ("zone", .str "tech"), ("created_at", .str "2024-01-01T00:00:00.000Z"),
        ("extra", .num 3)] ∧
    normalize [("title", .str "T"), ("author", .arr [.str "A"]),
        ("zone", .str "tech"), ("created_at", .str "2024-01-01T00:00:00.000Z"),
        ("extra", .num 3)] =
      .ok [("title", .str "T"), ("author", .arr [.str "A"]),
        ("zone", .str "tech"), ("created_at", .str "2024-01-01T00:00:00.000Z"),
        ("extra", .num 3)] :=
  ⟨rfl, normalize_idempotent
    [("title", .str "  T "), ("author", .arr [.str "A", .str " A"]),
     ("zone", .str " TECH "), ("created_at", .str "2024-01-01"), ("extra", .num 3)]
    _ rfl⟩

/-! ## Entry-list lookup lemmas -/

lemma lookupField_cons_self {f : String} {v : JsVal} {m : List (String × JsVal)} :
    lookupField ((f, v) :: m) f = some v := by
  unfold lookupField
  rw [List.find?_cons_of_pos]
  · rfl
  · simp

lemma lookupField_cons_ne {f g : String} {v : JsVal} {m : List (String × JsVal)}
    (h : (f == g) = false) : lookupField ((f, v) :: m) g = lookupField m g := by
  unfold lookupField
  rw [List.find?_cons_of_neg]
  simp [h]

lemma lookupField_consIf_ne {f g : String} {o : Option JsVal}
    {m : List (String × JsVal)} (h : (f == g) = false) :
    lookupField (consIf f o m) g = lookupField m g := by
  cases o with
  | none => rfl
  | some v => exact lookupField_cons_ne h

lemma consIf_append {f : String} {o : Option JsVal} {m b : List (String × JsVal)} :
    consIf f o m ++ b = consIf f o (m ++ b) := by
  cases o <;> rfl

lemma consIf_some {f : String} {v : JsVal} {m : List (String × JsVal)} :
    consIf f (some v) m = (f, v) :: m := rfl

/-! ## `createMetadata` on absent optional fields (claims C1, C9, C10) -/

lemma processOne_optional_missing {f : String} {rules : FieldRule}
    {input context : JsVal} {now : String} (hg : getProp input f = .ok .undefined)
    (hreq : rules.required = false) (hinf : rules.infer = none) :
    processOne f rules input context now = (some .undefined, [], []) := by
  simp only [processOne, hg, processField, isMissing, hreq, hinf]
  simp

/-- C1 as written is false on the code: for the input
`{title:"T", author:"A", zone:"z"}` — which omits `created_at`,
`updated_at` and `version` — the record returned by `createMetadata` has
each of these fields bound to the `undefined` value, not to the
current-timestamp / `"1.0.0"` defaults. -/
theorem createMetadata_defaults_counterexample :
    lookupField (createMetadata (.obj [("title", .str "T"), ("author", .str "A"),
        ("zone", .str "z")]) (.obj []) "2025-06-01T12:00:00.000Z").metadata
      "created_at" = some .undefined ∧
    lookupField (createMetadata (.obj [("title", .str "T"), ("author", .str "A"),
        ("zone", .str "z")]) (.obj []) "2025-06-01T12:00:00.000Z").metadata
      "updated_at" = some .undefined ∧
    lookupField (createMetadata (.obj [("title", .str "T"), ("author", .str "A"),
        ("zone", .str "z")]) (.obj []) "2025-06-01T12:00:00.000Z").metadata
      "version" = some .undefined ∧
    lookupField (createMetadata (.obj [("title", .str "T"), ("author", .str "A"),
        ("zone", .str "z")]) (.obj []) "2025-06-01T12:00:00.000Z").metadata
      "created_at" ≠ some (.str "2025-06-01T12:00:00.000Z") ∧
    lookupField (createMetadata (.obj [("title", .str "T"), ("author", .str "A"),
        ("zone", .str "z")]) (.obj []) "2025-06-01T12:00:00.000Z").metadata
      "version" ≠ some (.str "1.0.0") :=
  ⟨rfl, rfl, rfl,
   fun h => JsVal.noConfusion (Option.some.inj h),
   fun h => JsVal.noConfusion (Option.some.inj h)⟩

/-- C1 (amended): for every input on which `created_at`, `updated_at` and
`version` are absent, the record returned by `createMetadata` binds each
of those fields to the `undefined` value — the schema defaults of
optional fields are never applied (`processField` returns `undefined`
for an absent optional field). -/
theorem createMetadata_optional_fields_undefined (input context : JsVal)
    (now : String)
    (hc : getProp input "created_at" = .ok .undefined)
    (hu : getProp input "updated_at" = .ok .undefined)
    (hv : getProp input "version" = .ok .undefined) :
    lookupField (createMetadata input context now).metadata "created_at"
        = some .undefined ∧
    lookupField (createMetadata input context now).metadata "updated_at"
        = some .undefined ∧
    lookupField (createMetadata input context now).metadata "version"
        = some .undefined := by
  have pc := @processOne_optional_missing "created_at" createdAtRule input context
    now hc rfl rfl
  have pu := @processOne_optional_missing "updated_at" updatedAtRule input context
    now hu rfl rfl
  have pv := @processOne_optional_missing "version" versionRule input context
    now hv rfl rfl
  simp only [createMetadata, MetadataSchema, createFields, pc, pu, pv, consIf_some]
  refine ⟨?_, ?_, ?_⟩ <;>
    rw [consIf_append, lookupField_consIf_ne (by decide), consIf_append,
      lookupField_consIf_ne (by decide), consIf_append,
      lookupField_consIf_ne (by decide)]
  · exact lookupField_cons_self
  · rw [List.cons_append, lookupField_cons_ne (by decide)]
    exact lookupField_cons_self
  · rw [List.cons_append, lookupField_cons_ne (by decide),
      List.cons_append, lookupField_cons_ne (by decide)]
    exact lookupField_cons_self

/-- Witness for the amended C1. -/
theorem createMetadata_optional_fields_undefined_witness :
    getProp (.obj [("title", .str "T")]) "created_at" = .ok .undefined ∧
    (lookupField (createMetadata (.obj [("title", .str "T")]) (.obj [])
        "2025-06-01T12:00:00.000Z").metadata "created_at" = some .undefined ∧
     lookupField (createMetadata (.obj [("title", .str "T")]) (.obj [])
        "2025-06-01T12:00:00.000Z").metadata "updated_at" = some .undefined ∧
     lookupField (createMetadata (.obj [("title", .str "T")]) (.obj [])
        "2025-06-01T12:00:00.000Z").metadata "version" = some .undefined) :=
  ⟨rfl, createMetadata_optional_fields_undefined
    (.obj [("title", .str "T")]) (.obj []) "2025-06-01T12:00:00.000Z" rfl rfl rfl⟩

/-! ## `addMetadata` (claim C2) -/

/-- C2: `Manager.addMetadata` first builds the record with
`Processor.createMetadata` and then runs `Processor.validate` on it;
when validation reports invalid it throws an error whose message is
`"Invalid metadata: "` followed by the joined field messages and the
store is unchanged, and when validation reports valid the record is
appended at the end of the store and returned. -/
theorem addMetadata_spec (input context : JsVal) (now : String)
    (store : List JsVal) (vr : ValidationResult)
    (h : validate (.obj (createMetadata input context now).metadata) = .ok vr) :
    addMetadata input context now store =
      if vr.valid then
        (.ok (.obj (createMetadata input context now).metadata),
         store ++ [.obj (createMetadata input context now).metadata])
      else
        (.error ("Invalid metadata: " ++ joinMessages vr.errors), store) := by
  have hz : addMetadata input context now store =
      match validate (.obj (createMetadata input context now).metadata) with
      | .error e => (.error e, store)
      | .ok vr2 =>
          if vr2.valid then
            (.ok (.obj (createMetadata input context now).metadata),
             store ++ [.obj (createMetadata input context now).metadata])
          else (.error ("Invalid metadata: " ++ joinMessages vr2.errors), store) := rfl
  rw [hz]
  simp only [h]

/-- Witness for C2: a fully valid input is appended to the store. -/
theorem addMetadata_spec_witness :
    validate (.obj (createMetadata (.obj [("title", .str "T"),
        ("author", .str "A"), ("zone", .str "z")]) (.obj [])
        "2025-06-01T12:00:00.000Z").metadata) = .ok ⟨true, []⟩ ∧
    addMetadata (.obj [("title", .str "T"), ("author", .str "A"),
        ("zone", .str "z")]) (.obj []) "2025-06-01T12:00:00.000Z" [] =
      (if (ValidationResult.mk true []).valid then
        (.ok (.obj (createMetadata (.obj [("title", .str "T"),
            ("author", .str "A"), ("zone", .str "z")]) (.obj [])
            "2025-06-01T12:00:00.000Z").metadata),
         [] ++ [.obj (createMetadata (.obj [("title", .str "T"),
            ("author", .str "A"), ("zone", .str "z")]) (.obj [])
            "2025-06-01T12:00:00.000Z").metadata])
      else
        (.error ("Invalid metadata: " ++ joinMessages (ValidationResult.mk true []).errors),
         [])) :=
  ⟨rfl, addMetadata_spec (.obj [("title", .str "T"), ("author", .str "A"),
    ("zone", .str "z")]) (.obj []) "2025-06-01T12:00:00.000Z" [] ⟨true, []⟩ rfl⟩

/-! ## Warnings are tagged with their own field (claim C9) -/

lemma customValidate_ws (f : String) (rules : FieldRule) (v : JsVal)
    (ws : List (String × String)) : (customValidate f rules v ws).2 = ws := by
  unfold customValidate
  split
  · rfl
  · split <;> rfl

lemma processValue_ws (f : String) (rules : FieldRule) (v : JsVal)
    (ws : List (String × String)) : (processValue f rules v ws).2 = ws := by
  unfold processValue
  split
  · rfl
  · split
    · split
      · rfl
      · exact customValidate_ws ..
    · exact customValidate_ws ..

lemma processField_ws_key (f : String) (value : JsVal) (rules : FieldRule)
    (context : JsVal) (now : String) :
    ∀ p ∈ (processField f value rules context now).2, p.1 = f := by
  unfold processField
  split
  · split
    · split
      · intro p hp
        cases hp
      · intro p hp
        rw [processValue_ws] at hp
        rcases List.mem_singleton.mp hp with rfl
        rfl
    · split
      · intro p hp
        rw [processValue_ws] at hp
        rcases List.mem_singleton.mp hp with rfl
        rfl
      · intro p hp
        cases hp
  · intro p hp
    rw [processValue_ws] at hp
    cases hp

lemma processOne_ws_key (f : String) (rules : FieldRule) (input context : JsVal)
    (now : String) : ∀ p ∈ (processOne f rules input context now).2.2, p.1 = f := by
  unfold processOne
  split
  · split
    · intro p hp
      rcases List.mem_singleton.mp hp with rfl
      rfl
    · intro p hp
      cases hp
  · rename_i raw heq
    split
    · rename_i v ws heq2
      intro p hp
      have hk := processField_ws_key f raw rules context now p
      rw [heq2] at hk
      exact hk hp
    · rename_i e ws heq2
      split
      · intro p hp
        rcases List.mem_append.mp hp with hp1 | hp2
        · have hk := processField_ws_key f raw rules context now p
          rw [heq2] at hk
          exact hk hp1
        · rcases List.mem_singleton.mp hp2 with rfl
          rfl
      · intro p hp
        have hk := processField_ws_key f raw rules context now p
        rw [heq2] at hk
        exact hk hp

/-- C9: even with the default empty context, the zone-inference branch is
taken for an input whose `zone` is absent — the empty context object is
truthy — so the record's `zone` is `"general"`, the warnings contain
`(zone, "Value inferred from context")`, and the
`"Required field missing, using default"` warning is never emitted for
`zone`. -/
theorem zone_inference_fires_with_default_context (input : JsVal) (now : String)
    (hz : getProp input "zone" = .ok .undefined) :
    lookupField (createMetadata input (.obj []) now).metadata "zone"
        = some (.str "general") ∧
    ("zone", "Value inferred from context")
        ∈ (createMetadata input (.obj []) now).warnings ∧
    ("zone", "Required field missing, using default")
        ∉ (createMetadata input (.obj []) now).warnings := by
  have pf : processField "zone" .undefined zoneRule (.obj []) now
      = (.ok (.str "general"), [("zone", "Value inferred from context")]) := rfl
  have pz : processOne "zone" zoneRule input (.obj []) now
      = (some (.str "general"), [], [("zone", "Value inferred from context")]) := by
    simp only [processOne, hz, pf]
  refine ⟨?_, ?_, ?_⟩
  · simp only [createMetadata, MetadataSchema, createFields, pz, consIf_some]
    rw [consIf_append, lookupField_consIf_ne (by decide), consIf_append,
      lookupField_consIf_ne (by decide)]
    exact lookupField_cons_self
  · simp only [createMetadata, MetadataSchema, createFields, pz]
    simp
  · simp only [createMetadata, MetadataSchema, createFields, pz]
    intro hmem
    simp only [List.append_nil, List.mem_append] at hmem
    rcases hmem with h1 | h2 | h3 | h4 | h5 | h6
    · exact absurd (processOne_ws_key "title" titleRule input (.obj []) now _ h1)
        (by decide)
    · exact absurd (processOne_ws_key "author" authorRule input (.obj []) now _ h2)
        (by decide)
    · exact absurd h3 (by decide)
    · exact absurd (processOne_ws_key "created_at" createdAtRule input (.obj []) now
        _ h4) (by decide)
    · exact absurd (processOne_ws_key "updated_at" updatedAtRule input (.obj []) now
        _ h5) (by decide)
    · exact absurd (processOne_ws_key "version" versionRule input (.obj []) now
        _ h6) (by decide)

/-- Witness for C9. -/
theorem zone_inference_fires_with_default_context_witness :
    getProp (.obj [("title", .str "T"), ("author", .str "A")]) "zone"
        = .ok .undefined ∧
    (lookupField (createMetadata (.obj [("title", .str "T"), ("author", .str "A")])
        (.obj []) "2025-06-01T12:00:00.000Z").metadata "zone"
        = some (.str "general") ∧
     ("zone", "Value inferred from context")
        ∈ (createMetadata (.obj [("title", .str "T"), ("author", .str "A")])
            (.obj []) "2025-06-01T12:00:00.000Z").warnings ∧
     ("zone", "Required field missing, using default")
        ∉ (createMetadata (.obj [("title", .str "T"), ("author", .str "A")])
            (.obj []) "2025-06-01T12:00:00.000Z").warnings) :=
  ⟨rfl, zone_inference_fires_with_default_context
    (.obj [("title", .str "T"), ("author", .str "A")]) "2025-06-01T12:00:00.000Z" rfl⟩

/-! ## `importJSON` (claim C3) -/

/-- C3 as written is false on the code: `JSON.parse("[null]")` is an
array, but validating its `null` element throws a `TypeError` (property
access on `null`), the surrounding `catch` returns `false`, and the
store is left unchanged — the import does not succeed although the
parsed top-level value is an array. -/
theorem importJSON_null_element_counterexample :
    (importJSON (some (.arr [.null])) [.str "keep"]).ok = false ∧
    (importJSON (some (.arr [.null])) [.str "keep"]).store = [.str "keep"] :=
  ⟨rfl, rfl⟩

/-- C3 (amended): a parse failure or a non-array top level returns
`false` with the store unchanged; an array whose element-validation loop
does not throw has every element checked by `Processor.validate`,
invalid elements contributing only warnings, and the whole parsed array
(valid and invalid elements alike) replaces the store with the call
returning `true`.  (An array containing `null` — or any element on
which `validate` throws — instead returns `false` and leaves the store
unchanged.) -/
theorem importJSON_spec (store : List JsVal) :
    importJSON none store = ⟨false, store, []⟩ ∧
    (∀ v : JsVal, (∀ xs, v ≠ .arr xs) →
      importJSON (some v) store = ⟨false, store, []⟩) ∧
    (∀ (items : List JsVal) (results : List ValidationResult),
      validateAll items = .ok results →
      importJSON (some (.arr items)) store =
        ⟨true, items, (results.filter fun r => !r.valid).map (·.errors)⟩) := by
  refine ⟨rfl, ?_, ?_⟩
  · intro v hv
    cases v <;> first | rfl | exact absurd rfl (hv _)
  · intro items results h
    simp only [importJSON, h]

/-- Witness for the amended C3: one empty (invalid, warned-about) object
and one valid record are both imported; a number and a parse failure are
rejected. -/
theorem importJSON_spec_witness :
    validateAll [.obj [], .obj [("title", .str "T"), ("author", .str "A"),
        ("zone", .str "z")]] =
      .ok [⟨false, [("title", "Required field is missing"),
              ("author", "Required field is missing"),
              ("zone", "Required field is missing")]⟩, ⟨true, []⟩] ∧
    importJSON none [.str "keep"] = ⟨false, [.str "keep"], []⟩ ∧
    importJSON (some (.num 3)) [.str "keep"] = ⟨false, [.str "keep"], []⟩ ∧
    importJSON (some (.arr [.obj [], .obj [("title", .str "T"),
        ("author", .str "A"), ("zone", .str "z")]])) [.str "keep"] =
      ⟨true, [.obj [], .obj [("title", .str "T"), ("author", .str "A"),
          ("zone", .str "z")]],
       [[("title", "Required field is missing"),
         ("author", "Required field is missing"),
         ("zone", "Required field is missing")]]⟩ :=
  ⟨rfl, (importJSON_spec [.str "keep"]).1,
   (importJSON_spec [.str "keep"]).2.1 (.num 3) (fun _ h => JsVal.noConfusion h),
   (importJSON_spec [.str "keep"]).2.2
     [.obj [], .obj [("title", .str "T"), ("author", .str "A"), ("zone", .str "z")]]
     [⟨false, [("title", "Required field is missing"),
        ("author", "Required field is missing"),
        ("zone", "Required field is missing")]⟩, ⟨true, []⟩] rfl⟩

/-! ## `deduplicate` (claim C5) -/

/-- The specification's reading of deduplication: keep the head and
delete every later element carrying the same key, recursively — i.e.
keep exactly the first record per distinct key, in original relative
order. -/
def dedupSpec : List (JsVal × String) → List JsVal
  | [] => []
  | (v, k) :: rest => v :: dedupSpec (rest.filter fun p => p.2 != k)
termination_by l => l.length
decreasing_by
  simp
  exact Nat.lt_succ_of_le (List.length_filter_le _ _)

/-- The deduplication keys of all store elements (propagating a thrown
key computation). -/
def dedupKeys : List JsVal → Except String (List String)
  | [] => .ok []
  | x :: xs => do
      let k ← dedupKey x
      let ks ← dedupKeys xs
      .ok (k :: ks)

lemma dedupRun_eq {l : List JsVal} {ks : List String} (h : dedupKeys l = .ok ks)
    (seen : List String) :
    dedupRun seen l =
      .ok (dedupSpec ((l.zip ks).filter fun p => !(seen.contains p.2))) := by
  induction l generalizing ks seen with
  | nil =>
      obtain rfl : ([] : List String) = ks := by injection h
      show Except.ok [] = _
      simp [dedupSpec]
  | cons x xs ih =>
      have h' : (do
          let k ← dedupKey x
          let ks2 ← dedupKeys xs
          Except.ok (k :: ks2)) = .ok ks := h
      cases hk : dedupKey x with
      | error e => rw [hk] at h'; exact absurd h' (by simp [Bind.bind, Except.bind])
      | ok k =>
          rw [hk] at h'
          simp only [Bind.bind, Except.bind] at h'
          cases hks : dedupKeys xs with
          | error e => rw [hks] at h'; exact absurd h' (by simp)
          | ok ks2 =>
              rw [hks] at h'
              obtain rfl : k :: ks2 = ks := by injection h'
              show (do
                  let key ← dedupKey x
                  if seen.contains key then dedupRun seen xs
                  else do
                    let r ← dedupRun (key :: seen) xs
                    Except.ok (x :: r)) = _
              rw [hk]
              simp only [Bind.bind, Except.bind]
              rw [List.zip_cons_cons]
              by_cases hc : seen.contains k
              · rw [if_pos hc, ih hks seen]
                have hfe : (((x, k) :: xs.zip ks2).filter
                      fun p => !(seen.contains p.2))
                    = (xs.zip ks2).filter fun p => !(seen.contains p.2) := by
                  rw [List.filter_cons_of_neg]
                  simpa using hc
                rw [hfe]
              · rw [if_neg hc, ih hks (k :: seen)]
                simp only [Bind.bind, Except.bind]
                have hfe : (((x, k) :: xs.zip ks2).filter
                      fun p => !(seen.contains p.2))
                    = (x, k) :: ((xs.zip ks2).filter fun p => !(seen.contains p.2)) := by
                  rw [List.filter_cons_of_pos]
                  simpa using hc
                rw [hfe]
                have hsp : dedupSpec ((x, k) ::
                      ((xs.zip ks2).filter fun p => !(seen.contains p.2)))
                    = x :: dedupSpec ((((xs.zip ks2).filter
                        fun p => !(seen.contains p.2)).filter fun p => p.2 != k)) := by
                  simp [dedupSpec]
                rw [hsp, List.filter_filter]
                have hcong : ((xs.zip ks2).filter
                      fun p => !((k :: seen).contains p.2))
                    = (xs.zip ks2).filter fun p => (p.2 != k) && !(seen.contains p.2) := by
                  apply List.filter_congr
                  intro p _
                  by_cases hp : p.2 = k
                  · simp [hp]
                  · simp [List.contains_cons, hp, fun he : k = p.2 => hp he.symm]
                rw [hcong]

/-- C5: `Manager.deduplicate` computes each stored record's composite
`title`/`JSON.stringify(author)` key in a single stable pass over the
store with a running set of seen keys, and its result keeps exactly the
first record per distinct key in original relative order, removing every
later record whose key was already seen (`dedupSpec` is that
description). -/
theorem deduplicate_spec (store : List JsVal) (ks : List String)
    (h : dedupKeys store = .ok ks) :
    deduplicate store = .ok (dedupSpec (store.zip ks)) := by
  have h2 := dedupRun_eq h []
  simpa using h2

/-- Witness for C5: two records sharing a key and one distinct record. -/
theorem deduplicate_spec_witness :
    dedupKeys [.obj [("title", .str "X"), ("author", .str "A")],
        .obj [("title", .str "X"), ("author", .str "A")],
        .obj [("title", .str "Y"), ("author", .str "B")]] =
      .ok ["X:\"A\"", "X:\"A\"", "Y:\"B\""] ∧
    deduplicate [.obj [("title", .str "X"), ("author", .str "A")],
        .obj [("title", .str "X"), ("author", .str "A")],
        .obj [("title", .str "Y"), ("author", .str "B")]] =
      .ok (dedupSpec ([.obj [("title", .str "X"), ("author", .str "A")],
          .obj [("title", .str "X"), ("author", .str "A")],
          .obj [("title", .str "Y"), ("author", .str "B")]].zip
          ["X:\"A\"", "X:\"A\"", "Y:\"B\""])) :=
  ⟨rfl, deduplicate_spec _ _ rfl⟩

/-! ## The author normalizer (claim C6) -/

/-- The specification's reading of stable deduplication on strings: keep
the head, delete its later duplicates, recurse. -/
def dedupSpecStr : List String → List String
  | [] => []
  | x :: xs => x :: dedupSpecStr (xs.filter fun y => y != x)
termination_by l => l.length
decreasing_by
  simp
  exact Nat.lt_succ_of_le (List.length_filter_le _ _)

lemma dedupFirstAux_eq_spec (seen : List String) (l : List String) :
    dedupFirstAux seen l = dedupSpecStr (l.filter fun y => !(seen.contains y)) := by
  induction l generalizing seen with
  | nil =>
      show ([] : List String) = _
      simp [dedupSpecStr]
  | cons x xs ih =>
      unfold dedupFirstAux
      by_cases hc : seen.contains x
      · rw [if_pos hc, ih]
        have hfe : ((x :: xs).filter fun y => !(seen.contains y))
            = xs.filter fun y => !(seen.contains y) := by
          rw [List.filter_cons_of_neg]
          simpa using hc
        rw [hfe]
      · rw [if_neg hc, ih]
        have hfe : ((x :: xs).filter fun y => !(seen.contains y))
            = x :: (xs.filter fun y => !(seen.contains y)) := by
          rw [List.filter_cons_of_pos]
          simpa using hc
        rw [hfe]
        have hsp : dedupSpecStr (x :: (xs.filter fun y => !(seen.contains y)))
            = x :: dedupSpecStr (((xs.filter fun y => !(seen.contains y)).filter
                fun y => y != x)) := by
          simp [dedupSpecStr]
        rw [hsp, List.filter_filter]
        have hAB : (xs.filter fun y => !((x :: seen).contains y))
            = xs.filter fun a => (a != x) && !(seen.contains a) := by
          apply List.filter_congr
          intro y _
          by_cases hy : y = x
          · simp [hy]
          · simp [List.contains_cons, hy, fun he : x = y => hy he.symm]
        rw [hAB]

lemma dedupFirst_eq_spec (l : List String) : dedupFirst l = dedupSpecStr l := by
  have h := dedupFirstAux_eq_spec [] l
  simpa using h

/-- C6: the author normalizer trims a scalar string; it maps a list of
strings to the list obtained by trimming each element, dropping elements
that are empty after trimming, and keeping only the first occurrence of
each element in original order; in particular
`createMetadata({title:"T", author:["A","A","B"], zone:"z"})` yields
`author = ["A","B"]`. -/
theorem author_normalizer_spec :
    (∀ s : String, authorNormalize (.str s) = .ok (.str (jsTrim s))) ∧
    (∀ xs : List String,
      authorNormalize (.arr (xs.map .str)) =
        .ok (.arr ((dedupSpecStr ((xs.map jsTrim).filter
            fun t => t.length > 0)).map .str))) ∧
    lookupField (createMetadata (.obj [("title", .str "T"),
        ("author", .arr [.str "A", .str "A", .str "B"]), ("zone", .str "z")])
        (.obj []) "2025-06-01T12:00:00.000Z").metadata "author"
      = some (.arr [.str "A", .str "B"]) := by
  refine ⟨fun s => rfl, ?_, rfl⟩
  intro xs
  show (do
      let ts ← trimStrings (xs.map .str)
      Except.ok (JsVal.arr
        (List.map JsVal.str
          (dedupFirst (List.filter (fun t => decide (t.length > 0)) ts))))) = _
  rw [trimStrings_map_str]
  simp only [Bind.bind, Except.bind]
  rw [dedupFirst_eq_spec]

/-! ## Zone inference (claim C7) -/

/-- C7: the zone inferrer prefers `context.category` lowercased; when
`category` is absent it takes `context.tags[0]` lowercased for a
non-empty `tags` list; with neither it returns the literal `"general"`;
and end-to-end,
`createMetadata({title:"T", author:"A"}, {category:"AI-Research"})`
yields `zone = "ai-research"`. -/
theorem zoneInfer_spec :
    (∀ (ctx : JsVal) (c : String), getProp ctx "category" = .ok (.str c) →
      c ≠ "" → zoneInfer ctx = .ok (.str (jsLower c))) ∧
    (∀ (ctx : JsVal) (t : String) (ts : List JsVal),
      getProp ctx "category" = .ok .undefined →
      getProp ctx "tags" = .ok (.arr (.str t :: ts)) →
      zoneInfer ctx = .ok (.str (jsLower t))) ∧
    (∀ ctx : JsVal, getProp ctx "category" = .ok .undefined →
      getProp ctx "tags" = .ok .undefined →
      zoneInfer ctx = .ok (.str "general")) ∧
    lookupField (createMetadata (.obj [("title", .str "T"), ("author", .str "A")])
        (.obj [("category", .str "AI-Research")]) "2025-06-01T12:00:00.000Z").metadata
      "zone" = some (.str "ai-research") := by
  refine ⟨?_, ?_, ?_, rfl⟩
  · intro ctx c hcat hc
    have ht : truthy (.str c) = true := by
      show (!c.isEmpty) = true
      rw [Bool.not_eq_true', Bool.eq_false_iff]
      exact fun hi => hc ((String.isEmpty_iff c).mp hi)
    simp only [zoneInfer, hcat, Bind.bind, Except.bind, ht, if_true,
      toLowerCaseCall]
    rfl
  · intro ctx t ts hcat htags
    simp only [zoneInfer, hcat, htags, Bind.bind, Except.bind, truthy,
      lengthProp, gtZero, indexZero, toLowerCaseCall]
    simp
    rfl
  · intro ctx hcat htags
    simp only [zoneInfer, hcat, htags, Bind.bind, Except.bind, truthy,
      lengthProp, gtZero]
    simp
    rfl

/-- Witness for C7 at concrete contexts. -/
theorem zoneInfer_spec_witness :
    getProp (.obj [("category", .str "AI-Research")]) "category"
        = .ok (.str "AI-Research") ∧
    zoneInfer (.obj [("category", .str "AI-Research")])
        = .ok (.str (jsLower "AI-Research")) ∧
    zoneInfer (.obj [("tags", .arr [.str "Tech", .str "News"])])
        = .ok (.str (jsLower "Tech")) ∧
    zoneInfer (.obj []) = .ok (.str "general") :=
  ⟨rfl,
   zoneInfer_spec.1 (.obj [("category", .str "AI-Research")]) "AI-Research" rfl
     (by decide),
   zoneInfer_spec.2.1 (.obj [("tags", .arr [.str "Tech", .str "News"])]) "Tech"
     [.str "News"] rfl rfl,
   zoneInfer_spec.2.2.1 (.obj []) rfl rfl⟩

/-! ## Lemmas about `setEntry`, spread and `normalize` lookups
(claims C4, C10) -/

lemma lookupField_cons_pos {f g : String} {v : JsVal} {m : List (String × JsVal)}
    (h : (f == g) = true) : lookupField ((f, v) :: m) g = some v := by
  unfold lookupField
  have h2 := List.find?_cons_of_pos (p := fun p => p.1 == g) (a := (f, v)) m
    (by simpa using h)
  rw [h2]
  rfl

lemma setEntry_lookup_self (m : List (String × JsVal)) (k : String) (v : JsVal) :
    lookupField (setEntry m k v) k = some v := by
  induction m with
  | nil => exact lookupField_cons_self
  | cons p rest ih =>
      obtain ⟨k', v'⟩ := p
      unfold setEntry
      by_cases h : (k' == k) = true
      · rw [if_pos h]
        exact lookupField_cons_self
      · rw [if_neg h, lookupField_cons_ne (Bool.eq_false_iff.mpr h)]
        exact ih

lemma setEntry_lookup_ne {g k : String} {m : List (String × JsVal)} {v : JsVal}
    (h : (k == g) = false) :
    lookupField (setEntry m k v) g = lookupField m g := by
  induction m with
  | nil => exact lookupField_cons_ne h
  | cons p rest ih =>
      obtain ⟨k', v'⟩ := p
      unfold setEntry
      by_cases h2 : (k' == k) = true
      · rw [if_pos h2]
        have hk : k' = k := beq_iff_eq.mp h2
        rw [lookupField_cons_ne h, lookupField_cons_ne (hk ▸ h)]
      · rw [if_neg h2]
        by_cases h3 : (k' == g) = true
        · rw [lookupField_cons_pos h3, lookupField_cons_pos h3]
        · rw [lookupField_cons_ne (Bool.eq_false_iff.mpr h3),
            lookupField_cons_ne (Bool.eq_false_iff.mpr h3)]
          exact ih

lemma foldl_setEntry_lookup_not_mem {fs : List (String × JsVal)}
    {base : List (String × JsVal)} {k : String} (h : k ∉ fs.map Prod.fst) :
    lookupField (fs.foldl (fun acc p => setEntry acc p.1 p.2) base) k
      = lookupField base k := by
  induction fs generalizing base with
  | nil => rfl
  | cons p rest ih =>
      obtain ⟨k1, v1⟩ := p
      have hk1 : (k1 == k) = false := by
        rw [Bool.eq_false_iff]
        intro hb
        exact h (by simp [(beq_iff_eq.mp hb).symm])
      have hrest : k ∉ rest.map Prod.fst := fun hm => h (by simp [hm])
      rw [List.foldl_cons, ih hrest, setEntry_lookup_ne hk1]

lemma foldl_setEntry_lookup_mem {fs : List (String × JsVal)}
    {base : List (String × JsVal)} {k : String} {w : JsVal}
    (hnd : (fs.map Prod.fst).Nodup) (hmem : (k, w) ∈ fs) :
    lookupField (fs.foldl (fun acc p => setEntry acc p.1 p.2) base) k = some w := by
  induction fs generalizing base with
  | nil => cases hmem
  | cons p rest ih =>
      obtain ⟨k1, v1⟩ := p
      rw [List.foldl_cons]
      have hnd2 := hnd
      rw [List.map_cons, List.nodup_cons] at hnd2
      rcases List.mem_cons.mp hmem with he | hm
      · obtain ⟨rfl, rfl⟩ : k = k1 ∧ w = v1 := by
          constructor <;> injection he
        rw [foldl_setEntry_lookup_not_mem hnd2.1]
        exact setEntry_lookup_self ..
      · exact ih hnd2.2 hm

lemma setEntry_append_not_mem {m : List (String × JsVal)} {k : String} {v : JsVal}
    (h : k ∉ m.map Prod.fst) : setEntry m k v = m ++ [(k, v)] := by
  induction m with
  | nil => rfl
  | cons p rest ih =>
      obtain ⟨k1, v1⟩ := p
      have hk1 : (k1 == k) = false := by
        rw [Bool.eq_false_iff]
        intro hb
        exact h (by simp [(beq_iff_eq.mp hb).symm])
      unfold setEntry
      rw [if_neg (by simp [hk1])]
      rw [ih fun hm => h (by simp [hm])]
      rfl

lemma foldl_setEntry_from_nil {e : List (String × JsVal)}
    (hnd : (e.map Prod.fst).Nodup) :
    e.foldl (fun acc p => setEntry acc p.1 p.2) [] = e := by
  have key : ∀ (l acc : List (String × JsVal)), (l.map Prod.fst).Nodup →
      (∀ k ∈ l.map Prod.fst, k ∉ acc.map Prod.fst) →
      l.foldl (fun acc p => setEntry acc p.1 p.2) acc = acc ++ l := by
    intro l
    induction l with
    | nil => intro acc _ _; simp
    | cons p rest ih =>
        intro acc hnd2 hdisj
        obtain ⟨k1, v1⟩ := p
        have hnd3 := hnd2
        rw [List.map_cons, List.nodup_cons] at hnd3
        rw [List.foldl_cons, setEntry_append_not_mem (hdisj k1 (by simp))]
        rw [ih (acc ++ [(k1, v1)]) hnd3.2 ?_]
        · simp
        · intro k hk
          simp only [List.map_append, List.mem_append]
          rintro (hin | hin)
          · exact hdisj k (by simp [hk]) hin
          · have hk1 : k = k1 := by simpa using hin
            exact hnd3.1 (hk1 ▸ hk)
  simpa using key e [] hnd (by simp)

lemma lookupField_mem {l : List (String × JsVal)} {k : String} {v : JsVal}
    (h : lookupField l k = some v) : (k, v) ∈ l := by
  unfold lookupField at h
  cases hf : l.find? (fun p => p.1 == k) with
  | none => rw [hf] at h; cases h
  | some p =>
      rw [hf] at h
      obtain ⟨p1, p2⟩ := p
      obtain rfl : p2 = v := by injection h
      have hm := List.mem_of_find?_eq_some hf
      have hk : p1 = k := by
        have h2 := List.find?_some hf
        simpa [beq_iff_eq] using h2
      exact hk ▸ hm

lemma normalizeEntries_lookup {l l' : List (String × JsVal)}
    (h : normalizeEntries l = .ok l') {k : String} {v : JsVal}
    (hk : lookupField l k = some v) :
    ∃ w, applyNormalizer k v = .ok w ∧ lookupField l' k = some w := by
  induction l generalizing l' with
  | nil => cases hk
  | cons p rest ih =>
      obtain ⟨k1, v1⟩ := p
      have h' : (do
          let w ← applyNormalizer k1 v1
          let rest' ← normalizeEntries rest
          Except.ok ((k1, w) :: rest')) = .ok l' := h
      cases hw : applyNormalizer k1 v1 with
      | error e => rw [hw] at h'; exact absurd h' (by simp [Bind.bind, Except.bind])
      | ok w1 =>
          rw [hw] at h'
          simp only [Bind.bind, Except.bind] at h'
          cases hr : normalizeEntries rest with
          | error e => rw [hr] at h'; exact absurd h' (by simp)
          | ok r =>
              rw [hr] at h'
              obtain rfl : (k1, w1) :: r = l' := by injection h'
              by_cases hb : (k1 == k) = true
              · obtain rfl : k1 = k := beq_iff_eq.mp hb
                rw [lookupField_cons_pos hb] at hk
                obtain rfl : v1 = v := by injection hk
                exact ⟨w1, hw, lookupField_cons_pos hb⟩
              · have hbf : (k1 == k) = false := Bool.eq_false_iff.mpr hb
                rw [lookupField_cons_ne hbf] at hk
                obtain ⟨w, hw2, hl⟩ := ih hr hk
                exact ⟨w, hw2, by rw [lookupField_cons_ne hbf]; exact hl⟩

lemma normalizeEntries_error_head {k : String} {v : JsVal}
    {rest : List (String × JsVal)} {e : String}
    (hw : applyNormalizer k v = .error e) :
    normalizeEntries ((k, v) :: rest) = .error e := by
  show (do
      let w ← applyNormalizer k v
      let rest' ← normalizeEntries rest
      Except.ok ((k, w) :: rest')) = .error e
  rw [hw]
  rfl

lemma normalizeEntries_error_cons {k : String} {v w : JsVal}
    {rest : List (String × JsVal)} {e : String}
    (hw : applyNormalizer k v = .ok w) (he : normalizeEntries rest = .error e) :
    normalizeEntries ((k, v) :: rest) = .error e := by
  show (do
      let w2 ← applyNormalizer k v
      let rest' ← normalizeEntries rest
      Except.ok ((k, w2) :: rest')) = .error e
  rw [hw]
  simp only [Bind.bind, Except.bind]
  rw [he]

lemma normalizeEntries_error_of_mem {l : List (String × JsVal)} {k : String}
    {v : JsVal} {e0 : String} (hm : (k, v) ∈ l)
    (he : applyNormalizer k v = .error e0) :
    ∃ e, normalizeEntries l = .error e := by
  induction l with
  | nil => cases hm
  | cons p rest ih =>
      obtain ⟨k1, v1⟩ := p
      cases hw : applyNormalizer k1 v1 with
      | error e1 => exact ⟨e1, normalizeEntries_error_head hw⟩
      | ok w1 =>
          rcases List.mem_cons.mp hm with heq | hm2
          · obtain ⟨rfl, rfl⟩ : k = k1 ∧ v = v1 := by
              constructor <;> injection heq
            rw [hw] at he
            cases he
          · obtain ⟨e, her⟩ := ih hm2
            exact ⟨e, normalizeEntries_error_cons hw her⟩

/-! ## All normalizer errors are native `TypeError` / `RangeError` -/

lemma trimStrings_error_tag {xs : List JsVal} {e : String}
    (h : trimStrings xs = .error e) : e = "TypeError" := by
  induction xs generalizing e with
  | nil => exact absurd h (by simp [trimStrings])
  | cons x rest ih =>
      cases x with
      | str t =>
          have h' : (do
              let ts ← trimStrings rest
              Except.ok (jsTrim t :: ts)) = .error e := h
          cases hr : trimStrings rest with
          | error e1 =>
              rw [hr] at h'
              simp only [Bind.bind, Except.bind] at h'
              obtain rfl : e1 = e := by injection h'
              exact ih hr
          | ok ts =>
              rw [hr] at h'
              exact absurd h' (by simp [Bind.bind, Except.bind])
      | num n => injection h with h2; exact h2.symm
      | bool b => injection h with h2; exact h2.symm
      | null => injection h with h2; exact h2.symm
      | undefined => injection h with h2; exact h2.symm
      | arr l2 => injection h with h2; exact h2.symm
      | obj fs => injection h with h2; exact h2.symm

lemma trimNormalize_error_tag {v : JsVal} {e : String}
    (h : trimNormalize v = .error e) : e = "TypeError" := by
  cases v with
  | str s => exact absurd h (by simp [trimNormalize])
  | num n => injection h with h2; exact h2.symm
  | bool b => injection h with h2; exact h2.symm
  | null => injection h with h2; exact h2.symm
  | undefined => injection h with h2; exact h2.symm
  | arr l2 => injection h with h2; exact h2.symm
  | obj fs => injection h with h2; exact h2.symm

lemma zoneNormalize_error_tag {v : JsVal} {e : String}
    (h : zoneNormalize v = .error e) : e = "TypeError" := by
  cases v with
  | str s => exact absurd h (by simp [zoneNormalize])
  | num n => injection h with h2; exact h2.symm
  | bool b => injection h with h2; exact h2.symm
  | null => injection h with h2; exact h2.symm
  | undefined => injection h with h2; exact h2.symm
  | arr l2 => injection h with h2; exact h2.symm
  | obj fs => injection h with h2; exact h2.symm

lemma authorNormalize_error_tag {v : JsVal} {e : String}
    (h : authorNormalize v = .error e) : e = "TypeError" := by
  cases v with
  | arr xs =>
      have h' : (do
          let ts ← trimStrings xs
          Except.ok (JsVal.arr
            (List.map JsVal.str
              (dedupFirst (List.filter (fun t => decide (t.length > 0)) ts))))) =
          .error e := h
      cases ht : trimStrings xs with
      | error e1 =>
          rw [ht] at h'
          simp only [Bind.bind, Except.bind] at h'
          obtain rfl : e1 = e := by injection h'
          exact trimStrings_error_tag ht
      | ok ts =>
          rw [ht] at h'
          exact absurd h' (by simp [Bind.bind, Except.bind])
  | str s => exact absurd h (by simp [authorNormalize])
  | num n => cases h
  | bool b => cases h
  | null => cases h
  | undefined => cases h
  | obj fs => cases h

lemma dateNormalize_error_tag {v : JsVal} {e : String}
    (h : dateNormalize v = .error e) : e = "RangeError" := by
  cases v with
  | str s =>
      have h' : (match jsDateToISO s with
          | some r => Except.ok (JsVal.str r)
          | none => Except.error "RangeError") = .error e := h
      cases hd : jsDateToISO s with
      | some r => rw [hd] at h'; cases h'
      | none => rw [hd] at h'; injection h' with h2; exact h2.symm
  | null => cases h
  | bool b => cases b <;> cases h
  | num n => injection h with h2; exact h2.symm
  | undefined => injection h with h2; exact h2.symm
  | arr l2 => injection h with h2; exact h2.symm
  | obj fs => injection h with h2; exact h2.symm

lemma applyNormalizer_error_tag {k : String} {v : JsVal} {e : String}
    (h : applyNormalizer k v = .error e) : e = "TypeError" ∨ e = "RangeError" := by
  rcases schemaNormalizeFn_cases k with hc | hc | hc | hc | hc <;>
    simp only [applyNormalizer, hc] at h
  · exact absurd h (by simp)
  · exact Or.inl (trimNormalize_error_tag h)
  · exact Or.inl (authorNormalize_error_tag h)
  · exact Or.inl (zoneNormalize_error_tag h)
  · exact Or.inr (dateNormalize_error_tag h)

lemma normalizeEntries_error_tag {l : List (String × JsVal)} {e : String}
    (h : normalizeEntries l = .error e) : e = "TypeError" ∨ e = "RangeError" := by
  induction l generalizing e with
  | nil => cases h
  | cons p rest ih =>
      obtain ⟨k1, v1⟩ := p
      have h' : (do
          let w ← applyNormalizer k1 v1
          let rest' ← normalizeEntries rest
          Except.ok ((k1, w) :: rest')) = .error e := h
      cases hw : applyNormalizer k1 v1 with
      | error e1 =>
          rw [hw] at h'
          simp only [Bind.bind, Except.bind] at h'
          obtain rfl : e1 = e := by injection h'
          exact applyNormalizer_error_tag hw
      | ok w1 =>
          rw [hw] at h'
          simp only [Bind.bind, Except.bind] at h'
          cases hr : normalizeEntries rest with
          | error e2 =>
              rw [hr] at h'
              obtain rfl : e2 = e := by injection h'
              exact ih hr
          | ok r => rw [hr] at h'; cases h'

/-! ## Shape of `createMetadata` output values -/

lemma customValidate_ok {f : String} {rules : FieldRule} {w : JsVal}
    {ws : List (String × String)} {v : JsVal} {ws' : List (String × String)}
    (h : customValidate f rules w ws = (.ok v, ws')) : v = w := by
  unfold customValidate at h
  split at h
  · have h1 := congrArg Prod.fst h
    simp at h1
  · split at h
    · have h1 := congrArg Prod.fst h
      simpa using h1.symm
    · have h1 := congrArg Prod.fst h
      simp at h1

lemma processValue_ok_norm {f : String} {rules : FieldRule} {x : JsVal}
    {ws : List (String × String)} {v : JsVal} {ws' : List (String × String)}
    {nf : JsVal → Except String JsVal} (hn : rules.normalize = some nf)
    (h : processValue f rules x ws = (.ok v, ws')) : ∃ x0, nf x0 = .ok v := by
  unfold processValue at h
  split at h
  · have h1 := congrArg Prod.fst h
    simp at h1
  · split at h
    · rename_i nf2 hnf2
      split at h
      · have h1 := congrArg Prod.fst h
        simp at h1
      · rename_i w hw
        obtain rfl : nf2 = nf := by
          rw [hn] at hnf2
          exact (Option.some.inj hnf2).symm
        exact ⟨x, customValidate_ok h ▸ hw⟩
    · rename_i hnone
      rw [hn] at hnone
      cases hnone

lemma processField_ok_norm {f : String} {rules : FieldRule} {value context : JsVal}
    {now : String} {v : JsVal} {ws : List (String × String)}
    {nf : JsVal → Except String JsVal}
    (hn : rules.normalize = some nf) (hrq : rules.required = true)
    (h : processField f value rules context now = (.ok v, ws)) :
    ∃ x0, nf x0 = .ok v := by
  unfold processField at h
  split at h
  · split at h
    · split at h
      · have h1 := congrArg Prod.fst h
        simp at h1
      · exact processValue_ok_norm hn h
    · exact processValue_ok_norm hn h
  · exact processValue_ok_norm hn h

lemma processOne_norm_ok {f : String} {rules : FieldRule} {input context : JsVal}
    {now : String} {v : JsVal} {nf : JsVal → Except String JsVal}
    (hn : rules.normalize = some nf) (hrq : rules.required = true)
    (hidem : ∀ {a b : JsVal}, nf a = .ok b → nf b = .ok b)
    (hdef : nf (applyDefault rules now) = .ok (applyDefault rules now))
    (h : (processOne f rules input context now).1 = some v) :
    nf v = .ok v := by
  unfold processOne at h
  split at h
  · rw [hrq] at h
    simp only [if_true] at h
    obtain rfl : applyDefault rules now = v := by
      simpa using h
    exact hdef
  · split at h
    · rename_i v' ws heq
      obtain rfl : v' = v := by simpa using h
      obtain ⟨x0, hx0⟩ := processField_ok_norm hn hrq heq
      exact hidem hx0
    · rename_i e ws heq
      rw [hrq] at h
      simp only [if_true] at h
      obtain rfl : applyDefault rules now = v := by
        simpa using h
      exact hdef

lemma processOne_required_isSome {f : String} {rules : FieldRule}
    {input context : JsVal} {now : String} (hrq : rules.required = true) :
    ∃ v, (processOne f rules input context now).1 = some v := by
  unfold processOne
  split
  · rw [hrq]
    simp
  · split
    · exact ⟨_, rfl⟩
    · rw [hrq]
      simp

lemma createFields_keys_sublist (schema : List (String × FieldRule))
    (input context : JsVal) (now : String) :
    ((createFields schema input context now).1.map Prod.fst).Sublist
      (schema.map Prod.fst) := by
  induction schema with
  | nil => simp [createFields]
  | cons p rest ih =>
      obtain ⟨f, r⟩ := p
      simp only [createFields, List.map_cons]
      cases ho : (processOne f r input context now).1 with
      | none =>
          simp only [consIf]
          exact ih.cons f
      | some v =>
          simp only [consIf, List.map_cons]
          exact ih.cons₂ f

lemma createMetadata_keys_nodup (input context : JsVal) (now : String) :
    ((createMetadata input context now).metadata.map Prod.fst).Nodup := by
  have hsub := createFields_keys_sublist MetadataSchema input context now
  have hschema : MetadataSchema.map Prod.fst
      = ["title", "author", "zone", "created_at", "updated_at", "version"] := rfl
  rw [hschema] at hsub
  simp only [createMetadata]
  rw [List.map_append]
  apply List.Nodup.append
  · exact hsub.nodup (by decide)
  · simp
  · intro a ha hb
    have ha2 : a ∈ ["title", "author", "zone", "created_at", "updated_at",
      "version"] := hsub.subset ha
    have hb2 : a = "_metadata" := by simpa using hb
    subst hb2
    revert ha2
    decide

/-! ## The `applyNormalizer` of each schema key -/

lemma applyNormalizer_title (v : JsVal) :
    applyNormalizer "title" v = trimNormalize v := rfl

lemma applyNormalizer_author (v : JsVal) :
    applyNormalizer "author" v = authorNormalize v := rfl

lemma applyNormalizer_zone (v : JsVal) :
    applyNormalizer "zone" v = zoneNormalize v := rfl

lemma applyNormalizer_created_at (v : JsVal) :
    applyNormalizer "created_at" v = dateNormalize v := rfl

lemma applyNormalizer_updated_at (v : JsVal) :
    applyNormalizer "updated_at" v = dateNormalize v := rfl

lemma jsDateToISO_canon {s : String} (h : isCanonIsoL s.data = true) :
    jsDateToISO s = some s := by
  unfold jsDateToISO
  rw [if_pos h]

/-! ## `updateMetadata` (claims C4, C10) -/

lemma updateMetadata_in_bounds {store : List JsVal} {i : Nat}
    {e : List (String × JsVal)} (hget : store.get? i = some (.obj e))
    (updates : List (String × JsVal)) (now : String) :
    updateMetadata i updates now store =
      (match normalize (setEntry
          (updates.foldl (fun acc p => setEntry acc p.1 p.2)
            (e.foldl (fun acc p => setEntry acc p.1 p.2) []))
          "updated_at" (.str now)) with
       | .error e2 => (.error e2, store)
       | .ok norm =>
           match validate (.obj norm) with
           | .error e2 => (.error e2, store)
           | .ok vr =>
               if !vr.valid then
                 (.error ("Update validation failed: " ++ joinMessages vr.errors),
                  store)
               else (.ok (.obj norm), store.set i (.obj norm))) := by
  have hi : i < store.length := by
    rw [List.get?_eq_some] at hget
    exact hget.1
  have h1 : decide ((i : Int) < 0) = false := decide_eq_false (by omega)
  have h2 : decide ((store.length : Int) ≤ (i : Int)) = false :=
    decide_eq_false (by exact_mod_cast by omega)
  unfold updateMetadata
  rw [h1, h2]
  simp only [Bool.or_self, Bool.false_eq_true, if_false, Int.toNat_natCast, hget,
    Option.getD_some, spreadEntries,
    show (schemaRule "updated_at").isSome = true from rfl, if_true]

/-- Classifier used to state C10: the call failed with an exception that
is neither the invalid-index error nor the validation-failure error of
`updateMetadata`. -/
def isOtherFailure : Except String JsVal × List JsVal → Bool
  | (.error e, _) =>
      e != "Invalid metadata index" && !(e.startsWith "Update validation failed")
  | (.ok _, _) => false

lemma lookupField_append_left {a b : List (String × JsVal)} {k : String}
    {v : JsVal} (h : lookupField a k = some v) : lookupField (a ++ b) k = some v := by
  unfold lookupField at h ⊢
  rw [List.find?_append]
  cases hf : a.find? (fun p => p.1 == k) with
  | none => rw [hf] at h; cases h
  | some p =>
      rw [hf] at h
      exact h

lemma normalizeEntries_append_error {l l2 : List (String × JsVal)} {e : String}
    (h : normalizeEntries l = .error e) :
    normalizeEntries (l ++ l2) = .error e := by
  induction l generalizing e with
  | nil => cases h
  | cons p rest ih =>
      obtain ⟨k, v⟩ := p
      have h' : (do
          let w ← applyNormalizer k v
          let rest' ← normalizeEntries rest
          Except.ok ((k, w) :: rest')) = .error e := h
      cases hw : applyNormalizer k v with
      | error e1 =>
          rw [hw] at h'
          simp only [Bind.bind, Except.bind] at h'
          obtain rfl : e1 = e := by injection h'
          exact normalizeEntries_error_head hw
      | ok w =>
          rw [hw] at h'
          simp only [Bind.bind, Except.bind] at h'
          cases hr : normalizeEntries rest with
          | error e2 =>
              rw [hr] at h'
              obtain rfl : e2 = e := by injection h'
              exact normalizeEntries_error_cons hw (ih hr)
          | ok r => rw [hr] at h'; cases h'

set_option maxRecDepth 8000 in
/-- C10 as written is false on its `(or updated_at)` branch: a record
created with `created_at` and `version` supplied but `updated_at`
omitted has `updated_at` bound to `undefined`, and `Processor.normalize`
on the record does throw `RangeError` — yet `updateMetadata` on a store
slot holding the record succeeds, because the merge overwrites the
undefined `updated_at` with the current timestamp before normalizing.
This contradicts the claim's "consequently updateMetadata on such a
stored record fails". -/
theorem updateMetadata_succeeds_without_updated_at_counterexample :
    getProp (.obj [("title", .str "T"), ("author", .str "A"), ("zone", .str "z"),
        ("created_at", .str "2024-01-01T00:00:00.000Z"), ("version", .str "1.0.0")])
      "updated_at" = .ok .undefined ∧
    lookupField (createMetadata (.obj [("title", .str "T"), ("author", .str "A"),
        ("zone", .str "z"), ("created_at", .str "2024-01-01T00:00:00.000Z"),
        ("version", .str "1.0.0")]) (.obj []) "2025-06-01T12:00:00.000Z").metadata
      "updated_at" = some .undefined ∧
    normalize (createMetadata (.obj [("title", .str "T"), ("author", .str "A"),
        ("zone", .str "z"), ("created_at", .str "2024-01-01T00:00:00.000Z"),
        ("version", .str "1.0.0")]) (.obj []) "2025-06-01T12:00:00.000Z").metadata
      = .error "RangeError" ∧
    (updateMetadata 0 [("title", .str "New")] "2025-07-01T12:00:00.000Z"
      [.obj (createMetadata (.obj [("title", .str "T"), ("author", .str "A"),
        ("zone", .str "z"), ("created_at", .str "2024-01-01T00:00:00.000Z"),
        ("version", .str "1.0.0")]) (.obj []) "2025-06-01T12:00:00.000Z").metadata]).1
      = .ok (.obj [("title", .str "New"), ("author", .str "A"), ("zone", .str "z"),
          ("created_at", .str "2024-01-01T00:00:00.000Z"),
          ("updated_at", .str "2025-07-01T12:00:00.000Z"),
          ("version", .str "1.0.0"),
          ("_metadata", .obj [("processed_at", .str "2025-06-01T12:00:00.000Z"),
            ("processor_version", .str "1.0.0"), ("has_errors", .bool false),
            ("has_warnings", .bool false)])]) :=
  ⟨rfl, rfl, rfl, by rfl⟩

set_option maxRecDepth 4000 in
/-- C10 (amended, restricted to the `created_at` branch):
`createMetadata` binds an absent optional `created_at` to
`undefined`, so `Processor.normalize` on such a record hands `undefined`
to the date normalizer and throws (`RangeError` from `toISOString` on an
invalid date); consequently `updateMetadata` on a store slot holding
such a record (with `updates` not supplying `created_at`) fails with an
exception that is neither the invalid-index error nor the
validation-failure error, and leaves the store unchanged.  (The claim's
`updated_at` branch is refuted above: there the merge replaces the
undefined value with the current timestamp before normalizing.) -/
theorem createMetadata_undefined_created_at_breaks_normalize
    (input context : JsVal) (now0 : String) (store : List JsVal) (i : Nat)
    (updates : List (String × JsVal)) (now : String)
    (hc : getProp input "created_at" = .ok .undefined)
    (hget : store.get? i = some (.obj (createMetadata input context now0).metadata))
    (hupd : "created_at" ∉ updates.map Prod.fst) :
    normalize (createMetadata input context now0).metadata = .error "RangeError" ∧
    isOtherFailure (updateMetadata i updates now store) = true ∧
    (updateMetadata i updates now store).2 = store := by
  obtain ⟨v1, h1⟩ := @processOne_required_isSome "title" titleRule input context
    now0 rfl
  obtain ⟨v2, h2⟩ := @processOne_required_isSome "author" authorRule input context
    now0 rfl
  obtain ⟨v3, h3⟩ := @processOne_required_isSome "zone" zoneRule input context
    now0 rfl
  have pc := @processOne_optional_missing "created_at" createdAtRule input context
    now0 hc rfl rfl
  have hfields : (createFields MetadataSchema input context now0).1
      = ("title", v1) :: ("author", v2) :: ("zone", v3) :: ("created_at", .undefined) ::
        consIf "updated_at"
          (processOne "updated_at" updatedAtRule input context now0).1
          (consIf "version"
            (processOne "version" versionRule input context now0).1 []) := by
    simp only [createFields, MetadataSchema, h1, h2, h3, pc, consIf_some]
  have hm2 : ∃ l2, (createMetadata input context now0).metadata
      = (createFields MetadataSchema input context now0).1 ++ l2 := ⟨_, rfl⟩
  obtain ⟨l2, hm2⟩ := hm2
  have hn1 : applyNormalizer "title" v1 = .ok v1 := by
    rw [applyNormalizer_title]
    exact @processOne_norm_ok "title" titleRule input context now0 v1
      trimNormalize rfl rfl (fun h => trimNormalize_idem h) rfl h1
  have hn2 : applyNormalizer "author" v2 = .ok v2 := by
    rw [applyNormalizer_author]
    exact @processOne_norm_ok "author" authorRule input context now0 v2
      authorNormalize rfl rfl (fun h => authorNormalize_idem h) rfl h2
  have hn3 : applyNormalizer "zone" v3 = .ok v3 := by
    rw [applyNormalizer_zone]
    exact @processOne_norm_ok "zone" zoneRule input context now0 v3
      zoneNormalize rfl rfl (fun h => zoneNormalize_idem h) rfl h3
  have hnc : applyNormalizer "created_at" JsVal.undefined = .error "RangeError" := rfl
  have hnorm : normalize (createMetadata input context now0).metadata
      = .error "RangeError" := by
    rw [hm2]
    show normalizeEntries _ = _
    apply normalizeEntries_append_error
    rw [hfields]
    exact normalizeEntries_error_cons hn1 (normalizeEntries_error_cons hn2
      (normalizeEntries_error_cons hn3 (normalizeEntries_error_head hnc)))
  have hb := updateMetadata_in_bounds hget updates now
  have hnodup := createMetadata_keys_nodup input context now0
  have hce : lookupField (createMetadata input context now0).metadata "created_at"
      = some .undefined := by
    rw [hm2]
    apply lookupField_append_left
    rw [hfields, lookupField_cons_ne (by decide), lookupField_cons_ne (by decide),
      lookupField_cons_ne (by decide)]
    exact lookupField_cons_self
  have hmerge : lookupField (updates.foldl (fun acc p => setEntry acc p.1 p.2)
      ((createMetadata input context now0).metadata.foldl
        (fun acc p => setEntry acc p.1 p.2) [])) "created_at" = some .undefined := by
    rw [foldl_setEntry_lookup_not_mem hupd, foldl_setEntry_from_nil hnodup, hce]
  have hm2 : lookupField (setEntry (updates.foldl (fun acc p => setEntry acc p.1 p.2)
      ((createMetadata input context now0).metadata.foldl
        (fun acc p => setEntry acc p.1 p.2) [])) "updated_at" (.str now))
      "created_at" = some .undefined := by
    rw [setEntry_lookup_ne (by decide)]
    exact hmerge
  obtain ⟨e2, he2⟩ := normalizeEntries_error_of_mem (lookupField_mem hm2) hnc
  have htag := normalizeEntries_error_tag he2
  have hkey : updateMetadata i updates now store = (.error e2, store) := by
    rw [hb]
    have he2' : normalize (setEntry
        (updates.foldl (fun acc p => setEntry acc p.1 p.2)
          ((createMetadata input context now0).metadata.foldl
            (fun acc p => setEntry acc p.1 p.2) []))
        "updated_at" (.str now)) = .error e2 := he2
    simp only [he2']
  refine ⟨hnorm, ?_, ?_⟩
  · rw [hkey]
    rcases htag with rfl | rfl <;> rfl
  · rw [hkey]

/-- Witness for C10 at a concrete record and store. -/
theorem createMetadata_undefined_created_at_breaks_normalize_witness :
    getProp (.obj [("title", .str "T"), ("author", .str "A"), ("zone", .str "z")])
        "created_at" = .ok .undefined ∧
    [JsVal.obj (createMetadata (.obj [("title", .str "T"), ("author", .str "A"),
        ("zone", .str "z")]) (.obj []) "2025-06-01T12:00:00.000Z").metadata].get? 0
      = some (.obj (createMetadata (.obj [("title", .str "T"), ("author", .str "A"),
        ("zone", .str "z")]) (.obj []) "2025-06-01T12:00:00.000Z").metadata) ∧
    (normalize (createMetadata (.obj [("title", .str "T"), ("author", .str "A"),
        ("zone", .str "z")]) (.obj []) "2025-06-01T12:00:00.000Z").metadata
      = .error "RangeError" ∧
     isOtherFailure (updateMetadata 0 [("title", .str "New")]
        "2025-07-01T12:00:00.000Z"
        [.obj (createMetadata (.obj [("title", .str "T"), ("author", .str "A"),
          ("zone", .str "z")]) (.obj []) "2025-06-01T12:00:00.000Z").metadata])
        = true ∧
     (updateMetadata 0 [("title", .str "New")] "2025-07-01T12:00:00.000Z"
        [.obj (createMetadata (.obj [("title", .str "T"), ("author", .str "A"),
          ("zone", .str "z")]) (.obj []) "2025-06-01T12:00:00.000Z").metadata]).2
       = [.obj (createMetadata (.obj [("title", .str "T"), ("author", .str "A"),
          ("zone", .str "z")]) (.obj []) "2025-06-01T12:00:00.000Z").metadata]) :=
  ⟨rfl, rfl,
   createMetadata_undefined_created_at_breaks_normalize
     (.obj [("title", .str "T"), ("author", .str "A"), ("zone", .str "z")])
     (.obj []) "2025-06-01T12:00:00.000Z" _ 0 [("title", .str "New")]
     "2025-07-01T12:00:00.000Z" rfl rfl (by decide)⟩

/-- C4 as written is false on the code: a successful
`updateMetadata(0, {title:"New"})` on a record whose stored `created_at`
is the date-only string `"2024-01-01"` re-runs the date normalizer on
`created_at`, turning it into `"2024-01-01T00:00:00.000Z"` — the record's
`created_at` value is changed even though `updates` does not name it. -/
theorem updateMetadata_created_at_counterexample :
    (updateMetadata 0 [("title", .str "New")] "2025-06-01T12:00:00.000Z"
      [.obj [("title", .str "T"), ("author", .str "A"), ("zone", .str "z"),
        ("created_at", .str "2024-01-01"),
        ("updated_at", .str "2024-01-01T00:00:00.000Z")]]).1 =
      .ok (.obj [("title", .str "New"), ("author", .str "A"), ("zone", .str "z"),
        ("created_at", .str "2024-01-01T00:00:00.000Z"),
        ("updated_at", .str "2025-06-01T12:00:00.000Z")]) ∧
    lookupField [("title", .str "T"), ("author", .str "A"), ("zone", .str "z"),
        ("created_at", .str "2024-01-01"),
        ("updated_at", .str "2024-01-01T00:00:00.000Z")] "created_at"
      = some (.str "2024-01-01") ∧
    ("2024-01-01T00:00:00.000Z" : String) ≠ "2024-01-01" :=
  ⟨rfl, rfl, by decide⟩

/-- C4 (amended): a successful `updateMetadata(i, updates)` sets the
stored record's `updated_at` to the current timestamp even when
`updates` supplies its own `updated_at`; every field named in `updates`
takes the updated value passed through its schema normalizer; and
`created_at` — which is re-run through the date normalizer — is
unchanged provided `updates` does not name it and its stored value is
already in canonical ISO form (as `createMetadata` and the normalizer
produce). -/
theorem updateMetadata_timestamps (store : List JsVal) (i : Nat)
    (updates : List (String × JsVal)) (now : String)
    (e e' : List (String × JsVal)) (store' : List JsVal) (c : String)
    (hget : store.get? i = some (.obj e))
    (hnd : (e.map Prod.fst).Nodup)
    (hc : lookupField e "created_at" = some (.str c))
    (hcanon : isCanonIsoL c.data = true)
    (hnow : isCanonIsoL now.data = true)
    (hupd : "created_at" ∉ updates.map Prod.fst)
    (h : updateMetadata i updates now store = (.ok (.obj e'), store')) :
    lookupField e' "updated_at" = some (.str now) ∧
    lookupField e' "created_at" = some (.str c) ∧
    (∀ (k : String) (w w' : JsVal), (k, w) ∈ updates →
      (updates.map Prod.fst).Nodup → k ≠ "updated_at" →
      applyNormalizer k w = .ok w' → lookupField e' k = some w') := by
  rw [updateMetadata_in_bounds hget updates now] at h
  set merged := setEntry
    (updates.foldl (fun acc p => setEntry acc p.1 p.2)
      (e.foldl (fun acc p => setEntry acc p.1 p.2) []))
    "updated_at" (.str now) with hmerged
  cases hn : normalize merged with
  | error e2 =>
      rw [hn] at h
      have h1 := congrArg Prod.fst h
      simp at h1
  | ok norm =>
      rw [hn] at h
      simp only [] at h
      cases hv : validate (.obj norm) with
      | error e2 =>
          rw [hv] at h
          have h1 := congrArg Prod.fst h
          simp at h1
      | ok vr =>
          rw [hv] at h
          simp only [] at h
          cases hbv : vr.valid with
          | false =>
              rw [hbv] at h
              have h1 := congrArg Prod.fst h
              simp at h1
          | true =>
              rw [hbv] at h
              simp only [Bool.not_true, Bool.false_eq_true, if_false] at h
              have h1 := congrArg Prod.fst h
              simp only [Prod.fst] at h1
              have hnorm : norm = e' := by
                have h2 := Except.ok.inj h1
                injection h2
              subst hnorm
              have hnormE : normalizeEntries merged = .ok norm := hn
              have hupdated : lookupField merged "updated_at" = some (.str now) := by
                rw [hmerged]
                exact setEntry_lookup_self ..
              have hcreated : lookupField merged "created_at" = some (.str c) := by
                rw [hmerged, setEntry_lookup_ne (by decide),
                  foldl_setEntry_lookup_not_mem hupd, foldl_setEntry_from_nil hnd]
                exact hc
              refine ⟨?_, ?_, ?_⟩
              · obtain ⟨w, hw, hl⟩ := normalizeEntries_lookup hnormE hupdated
                have hwv : applyNormalizer "updated_at" (.str now)
                    = .ok (.str now) := by
                  rw [applyNormalizer_updated_at]
                  show (match jsDateToISO now with
                    | some r => Except.ok (JsVal.str r)
                    | none => Except.error "RangeError") = Except.ok (JsVal.str now)
                  rw [jsDateToISO_canon hnow]
                rw [hwv] at hw
                obtain rfl : JsVal.str now = w := by injection hw
                exact hl
              · obtain ⟨w, hw, hl⟩ := normalizeEntries_lookup hnormE hcreated
                have hwv : applyNormalizer "created_at" (.str c) = .ok (.str c) := by
                  rw [applyNormalizer_created_at]
                  show (match jsDateToISO c with
                    | some r => Except.ok (JsVal.str r)
                    | none => Except.error "RangeError") = Except.ok (JsVal.str c)
                  rw [jsDateToISO_canon hcanon]
                rw [hwv] at hw
                obtain rfl : JsVal.str c = w := by injection hw
                exact hl
              · intro k w w' hkw hknd hkne hknorm
                have hmk : lookupField merged k = some w := by
                  rw [hmerged, setEntry_lookup_ne (by
                    rw [Bool.eq_false_iff]
                    intro hb
                    exact hkne (beq_iff_eq.mp hb).symm)]
                  exact foldl_setEntry_lookup_mem hknd hkw
                obtain ⟨w2, hw2, hl2⟩ := normalizeEntries_lookup hnormE hmk
                rw [hknorm] at hw2
                obtain rfl : w' = w2 := by injection hw2
                exact hl2

/-- Witness for the amended C4: updating the title also refreshes
`updated_at` and keeps a canonical `created_at`. -/
theorem updateMetadata_timestamps_witness :
    ([JsVal.obj [("title", .str "T"), ("author", .str "A"), ("zone", .str "z"),
        ("created_at", .str "2024-01-01T00:00:00.000Z"),
        ("updated_at", .str "2024-01-01T00:00:00.000Z")]].get? 0
      = some (.obj [("title", .str "T"), ("author", .str "A"), ("zone", .str "z"),
        ("created_at", .str "2024-01-01T00:00:00.000Z"),
        ("updated_at", .str "2024-01-01T00:00:00.000Z")])) ∧
    (updateMetadata 0 [("title", .str "New")] "2025-06-01T12:00:00.000Z"
        [.obj [("title", .str "T"), ("author", .str "A"), ("zone", .str "z"),
          ("created_at", .str "2024-01-01T00:00:00.000Z"),
          ("updated_at", .str "2024-01-01T00:00:00.000Z")]]
      = (.ok (.obj [("title", .str "New"), ("author", .str "A"),
          ("zone", .str "z"),
          ("created_at", .str "2024-01-01T00:00:00.000Z"),
          ("updated_at", .str "2025-06-01T12:00:00.000Z")]),
         [.obj [("title", .str "New"), ("author", .str "A"), ("zone", .str "z"),
          ("created_at", .str "2024-01-01T00:00:00.000Z"),
          ("updated_at", .str "2025-06-01T12:00:00.000Z")]])) ∧
    (lookupField [("title", .str "New"), ("author", .str "A"), ("zone", .str "z"),
        ("created_at", .str "2024-01-01T00:00:00.000Z"),
        ("updated_at", .str "2025-06-01T12:00:00.000Z")] "updated_at"
      = some (.str "2025-06-01T12:00:00.000Z") ∧
     lookupField [("title", .str "New"), ("author", .str "A"), ("zone", .str "z"),
        ("created_at", .str "2024-01-01T00:00:00.000Z"),
        ("updated_at", .str "2025-06-01T12:00:00.000Z")] "created_at"
      = some (.str "2024-01-01T00:00:00.000Z") ∧
     (∀ (k : String) (w w' : JsVal), (k, w) ∈ [(("title" : String), JsVal.str "New")] →
      ([(("title" : String), JsVal.str "New")].map Prod.fst).Nodup →
      k ≠ "updated_at" → applyNormalizer k w = .ok w' →
      lookupField [("title", .str "New"), ("author", .str "A"), ("zone", .str "z"),
        ("created_at", .str "2024-01-01T00:00:00.000Z"),
        ("updated_at", .str "2025-06-01T12:00:00.000Z")] k = some w')) :=
  ⟨rfl, rfl,
   updateMetadata_timestamps
     [.obj [("title", .str "T"), ("author", .str "A"), ("zone", .str "z"),
       ("created_at", .str "2024-01-01T00:00:00.000Z"),
       ("updated_at", .str "2024-01-01T00:00:00.000Z")]]
     0 [("title", .str "New")] "2025-06-01T12:00:00.000Z"
     [("title", .str "T"), ("author", .str "A"), ("zone", .str "z"),
       ("created_at", .str "2024-01-01T00:00:00.000Z"),
       ("updated_at", .str "2024-01-01T00:00:00.000Z")]
     [("title", .str "New"), ("author", .str "A"), ("zone", .str "z"),
       ("created_at", .str "2024-01-01T00:00:00.000Z"),
       ("updated_at", .str "2025-06-01T12:00:00.000Z")]
     [.obj [("title", .str "New"), ("author", .str "A"), ("zone", .str "z"),
       ("created_at", .str "2024-01-01T00:00:00.000Z"),
       ("updated_at", .str "2025-06-01T12:00:00.000Z")]]
     "2024-01-01T00:00:00.000Z"
     rfl (by decide) rfl (by decide) (by decide) (by decide) rfl⟩

end MetadataSystem
